import Mathlib

/-!
Verification development for the Graphtastic discretised-heatmap engine.

A shallow embedding of the contour-tracing / region-filling engine of
`discreteheatmap.py` (function `main`, lines 100-364, together with the helpers
`calc_area_hierarchy`, `close_paths` and `test_clockwise`), and proofs about it.

Modelling conventions:
* Python dictionaries keyed by coordinate pairs become association lists over a
  type with decidable equality (`alookup` / `ainsert` / `aerase`); dictionary
  assignment overwrites, deletion removes, missing-key access is a `none`
  (Python would raise `KeyError`), so fallible steps live in `Option`.
* Floating point coordinates become exact arithmetic (`ℚ` for the grid
  geometry, `ℤ` for the frame-following walk on the canonical even lattice);
  `np.allclose` becomes exact equality, the intended idealisation since the
  tolerances exist only to absorb float rounding.
* Python `set` iteration order is unspecified; the embedding fixes the
  generation order (row-major over grid squares, chain order inside a square).
* The matplotlib primitives `Path.contains_point` / `Path.contains_path` are
  external to the repository; they are abstracted as function parameters.
-/

namespace Graphtastic

/-! ## Association lists: the model of Python dictionaries -/

/-- Dictionary lookup: first binding of key `k`. -/
def alookup {α β : Type} [DecidableEq α] (k : α) : List (α × β) → Option β
  | [] => none
  | (a, b) :: t => if a = k then some b else alookup k t

/-- Dictionary deletion: remove all bindings of key `k`. -/
def aerase {α β : Type} [DecidableEq α] (k : α) : List (α × β) → List (α × β)
  | [] => []
  | (a, b) :: t => if a = k then aerase k t else (a, b) :: aerase k t

/-- Dictionary assignment: bind `k` to `v`, overwriting any previous binding. -/
def ainsert {α β : Type} [DecidableEq α] (k : α) (v : β) (l : List (α × β)) :
    List (α × β) :=
  (k, v) :: aerase k l

/-! ## The path stitcher (`main`, lines 165-300)

The stitcher keeps three dictionaries: `paths` (start point ↦ vertex list),
`sToE` (`startsToEnds`: start ↦ end) and `eToS` (`endsToStarts`: end ↦ start).
Each grid square contributes a batch of boundary segments `(j, k)`; segments
are classified against the state as it was *before* the batch, then applied in
the order: gap fills, start extensions, end extensions, new stand-alone
segments.  When a square has more than two boundary points, every emitted
piece is routed through the square's middle point (`mid`).

The stitcher is generic in the point type `α`: it only ever compares points
for equality. -/

/-- The mutable stitching state of `main`: the three dictionaries. -/
structure SState (α : Type) where
  paths : List (α × List α)
  sToE : List (α × α)
  eToS : List (α × α)
deriving DecidableEq, Repr

variable {α : Type} [DecidableEq α]

/-- The empty stitching state (`paths = {}`, `startsToEnds = {}`,
`endsToStarts = {}`, lines 165-170). -/
def SState.empty (α : Type) : SState α := ⟨[], [], []⟩

/-- Gap fill (lines 205-228 / 254-276): the segment `(j, k)` joins the path
ending at `j` with the path starting at `k`; if the two are the same path the
loop is closed instead.  `mid` is `some m` when the square routes through its
middle point. -/
def opFillGap (mid : Option α) (j k : α) (st : SState α) : Option (SState α) := do
  let eK ← alookup k st.sToE                     -- endOfBoundaryStartingAtK
  let sJ ← alookup j st.eToS                     -- startOfBoundaryEndingAtJ
  let sp ← alookup sJ st.paths                   -- startPath
  let sp2 := sp ++ mid.toList                    -- startPath.append(middle)
  if eK ≠ j then do
    let pk0 ← alookup k st.paths
    -- paths[k] is read after startPath was mutated in place, so if k is the
    -- start of startPath itself the mutated list is read back
    let pk := if k = sJ then sp2 else pk0
    some { paths := aerase k (ainsert sJ (sp2 ++ pk) st.paths),
           sToE := ainsert sJ eK (aerase k st.sToE),
           eToS := ainsert eK sJ (aerase j st.eToS) }
  else
    -- the path starting at k ends at j: close the loop, set startsToEnds[k]=k
    -- and do not record the end in endsToStarts (source comment lines 224-226)
    some { paths := ainsert sJ (sp2 ++ [k]) st.paths,
           sToE := ainsert k k (aerase k st.sToE),
           eToS := aerase j st.eToS }

/-- Start extension (lines 229-238 / 277-286): the segment `(j, k)` prepends
`j` to the path starting at `k`. -/
def opExtendStart (mid : Option α) (j k : α) (st : SState α) : Option (SState α) := do
  let eK ← alookup k st.sToE
  let pk ← alookup k st.paths
  some { paths := aerase k (ainsert j ([j] ++ mid.toList ++ pk) st.paths),
         sToE := ainsert j eK (aerase k st.sToE),
         eToS := ainsert eK j st.eToS }

/-- End extension (lines 239-247 / 287-295): the segment `(j, k)` appends `k`
to the path ending at `j`. -/
def opExtendEnd (mid : Option α) (j k : α) (st : SState α) : Option (SState α) := do
  let sJ ← alookup j st.eToS
  let pj ← alookup sJ st.paths
  some { paths := ainsert sJ (pj ++ mid.toList ++ [k]) st.paths,
         sToE := ainsert sJ k st.sToE,
         eToS := ainsert k sJ (aerase j st.eToS) }

/-- Stand-alone segment (lines 248-252 / 296-300): start a brand new path. -/
def opNewAlone (mid : Option α) (j k : α) (st : SState α) : SState α :=
  { paths := ainsert j ([j] ++ mid.toList ++ [k]) st.paths,
    sToE := ainsert j k st.sToE,
    eToS := ainsert k j st.eToS }

/-- Segment classification against the pre-batch state (lines 181-197):
`0` = stand-alone, `1` = gap fill, `2` = start extension, `3` = end
extension. -/
def segClass (st0 : SState α) (jk : α × α) : ℕ :=
  let extendEnd := (alookup jk.1 st0.eToS).isSome
  let extendStart := (alookup jk.2 st0.sToE).isSome
  if ¬ (extendStart ∨ extendEnd) then 0
  else if extendStart ∧ extendEnd then 1
  else if extendStart then 2 else 3

/-- The cyclic segment chain of one square (lines 173-181): the square's
boundary points, with the first point appended again at the end, paired up
consecutively. -/
def chainOf (pts : List α) : List (α × α) :=
  match pts with
  | [] => []
  | p :: _ => pts.zip (pts.tail ++ [p])

/-- Apply one square's batch of segments (lines 171-300): classify every
segment of the chain against the incoming state, then apply gap fills, start
extensions, end extensions and stand-alone segments, in that order. -/
def applyBatch (st0 : SState α) (pts : List α) (mid : Option α) :
    Option (SState α) := do
  let chain := chainOf pts
  let fills := chain.filter (fun s => segClass st0 s == 1)
  let starts := chain.filter (fun s => segClass st0 s == 2)
  let ends := chain.filter (fun s => segClass st0 s == 3)
  let news := chain.filter (fun s => segClass st0 s == 0)
  let st1 ← fills.foldlM (fun st s => opFillGap mid s.1 s.2 st) st0
  let st2 ← starts.foldlM (fun st s => opExtendStart mid s.1 s.2 st) st1
  let st3 ← ends.foldlM (fun st s => opExtendEnd mid s.1 s.2 st) st2
  some (news.foldl (fun st s => opNewAlone mid s.1 s.2 st) st3)

/-- Run the stitcher over a list of square batches (the loop
`for i in boundaryCoords`). -/
def applyBatches (st0 : SState α) : List (List α × Option α) → Option (SState α)
  | [] => some st0
  | b :: bs => do
      let st1 ← applyBatch st0 b.1 b.2
      applyBatches st1 bs

/-! ## Guarded stitcher operations

The four splice operations, instrumented with decidable guards.  Each guard
rejects exactly the situations in which a dictionary write of the source
would silently overwrite a live record of another path (the "easy-to-corrupt
three-map bookkeeping" the spec's design notes warn about).  A guarded run
that succeeds performs precisely the source's updates. -/

/-- Guarded gap fill: additionally requires `j ≠ k`, that `k` is not a closed
loop's basepoint, and that a genuine splice does not silently produce a
start-equals-end path. -/
def opFillGapChecked (mid : Option α) (j k : α) (st : SState α) :
    Option (SState α) := do
  let eK ← alookup k st.sToE
  let sJ ← alookup j st.eToS
  if j = k ∨ eK = k ∨ (eK ≠ j ∧ eK = sJ) then none
  else opFillGap mid j k st

/-- Guarded start extension: additionally requires that no live path already
starts at `j` and that the extension does not create a degenerate loop. -/
def opExtendStartChecked (mid : Option α) (j k : α) (st : SState α) :
    Option (SState α) := do
  let eK ← alookup k st.sToE
  if j = k ∨ j = eK ∨ eK = k ∨ (alookup j st.sToE).isSome then none
  else opExtendStart mid j k st

/-- Guarded end extension: additionally requires that no other live path
already ends at `k` and that the extension does not create a degenerate
loop. -/
def opExtendEndChecked (mid : Option α) (j k : α) (st : SState α) :
    Option (SState α) := do
  let sJ ← alookup j st.eToS
  if j = k ∨ k = sJ ∨ (alookup k (aerase j st.eToS)).isSome then none
  else opExtendEnd mid j k st

/-- Guarded stand-alone segment: additionally requires that no live path
already starts at `j` or ends at `k`, and `j ≠ k`. -/
def opNewAloneChecked (mid : Option α) (j k : α) (st : SState α) :
    Option (SState α) :=
  if j = k ∨ (alookup j st.sToE).isSome ∨ (alookup k st.eToS).isSome then none
  else some (opNewAlone mid j k st)

/-- Guarded batch application: `applyBatch` with every operation guarded. -/
def applyBatchChecked (st0 : SState α) (pts : List α) (mid : Option α) :
    Option (SState α) := do
  let chain := chainOf pts
  let fills := chain.filter (fun s => segClass st0 s == 1)
  let starts := chain.filter (fun s => segClass st0 s == 2)
  let ends := chain.filter (fun s => segClass st0 s == 3)
  let news := chain.filter (fun s => segClass st0 s == 0)
  let st1 ← fills.foldlM (fun st s => opFillGapChecked mid s.1 s.2 st) st0
  let st2 ← starts.foldlM (fun st s => opExtendStartChecked mid s.1 s.2 st) st1
  let st3 ← ends.foldlM (fun st s => opExtendEndChecked mid s.1 s.2 st) st2
  news.foldlM (fun st s => opNewAloneChecked mid s.1 s.2 st) st3

/-- Guarded batch-sequence application. -/
def applyBatchesChecked (st0 : SState α) :
    List (List α × Option α) → Option (SState α)
  | [] => some st0
  | b :: bs => do
      let st1 ← applyBatchChecked st0 b.1 b.2
      applyBatchesChecked st1 bs

/-! ## The bookkeeping invariant (claim C10)

After each batch the three dictionaries describe each other: every
`startsToEnds` record points at a stored vertex list running from its start
to its end, every open record is mirrored in `endsToStarts`, every
`endsToStarts` record is the mirror of an *open* `startsToEnds` record
(closed loops keep `startsToEnds[k] = k` but no `endsToStarts` entry, source
comment lines 224-226), and every stored path is registered. -/

/-- Mutual consistency of the three stitching dictionaries. -/
structure Consistent (st : SState α) : Prop where
  startPath : ∀ s e, alookup s st.sToE = some e →
    ∃ v, alookup s st.paths = some v ∧ v.head? = some s ∧ v.getLast? = some e
  startEnd : ∀ s e, alookup s st.sToE = some e → e ≠ s →
    alookup e st.eToS = some s
  endStart : ∀ e s, alookup e st.eToS = some s →
    alookup s st.sToE = some e ∧ e ≠ s
  pathsReg : ∀ s v, alookup s st.paths = some v → (alookup s st.sToE).isSome

/-! ### Endpoint conservation (claim C3)

`InVerts st x` says that `x` occurs in some stored path of `st`.  Along a
guarded run from a consistent state, stored vertices are never lost and both
endpoints of every applied segment occur in the final paths. -/

/-- `x` is a vertex of some stored path. -/
def InVerts (st : SState α) (x : α) : Prop :=
  ∃ s v, alookup s st.paths = some v ∧ x ∈ v

/-! ## Grid geometry (`main`, lines 117-162)

`xCoords` / `yCoords` come from `np.meshgrid` of increasing coordinate
vectors, so `xCoords[r, c] = xs c` and `yCoords[r, c] = ys r`; `zValues[r, c]`
holds the already-discretised category value.  Category values are modelled as
naturals (only equality of values is ever used). -/

/-- A 2-D point with exact rational coordinates (model of a float pair). -/
abbrev Pt := ℚ × ℚ

/-- The input grid: an `rows × cols` matrix of category values on a meshgrid. -/
structure Grid where
  rows : ℕ
  cols : ℕ
  xs : ℕ → ℚ
  ys : ℕ → ℚ
  z : ℕ → ℕ → ℕ

/-- `halfDeltaX` (line 122): half the distance between the first two X
coordinates. -/
def halfDeltaX (g : Grid) : ℚ := |g.xs 1 - g.xs 0| / 2

/-- `halfDeltaY` (line 125): half the distance between the first two Y
coordinates. -/
def halfDeltaY (g : Grid) : ℚ := |g.ys 1 - g.ys 0| / 2

/-- `rowsNotEqual[i, j]` (line 137): `zValues[i, j] != zValues[i, j+1]`. -/
def rowsNotEqual (g : Grid) (i j : ℕ) : Bool := g.z i j != g.z i (j + 1)

/-- `columnsNotEqual[i, j]` (line 138): `zValues[i, j] != zValues[i+1, j]`. -/
def colsNotEqual (g : Grid) (i j : ℕ) : Bool := g.z i j != g.z (i + 1) j

/-- The boundary entry/exit points of square `(i, j)` (line 161): the four
side midpoints, kept when the two corners of that side have unequal values,
in the fixed order left, top, right, bottom. -/
def cellPoints (g : Grid) (i j : ℕ) : List Pt :=
  (if colsNotEqual g i j then [((g.xs j : ℚ), g.ys i + halfDeltaY g)] else []) ++
  (if rowsNotEqual g (i + 1) j then [(g.xs j + halfDeltaX g, g.ys (i + 1))] else []) ++
  (if colsNotEqual g i (j + 1) then [(g.xs (j + 1), g.ys i + halfDeltaY g)] else []) ++
  (if rowsNotEqual g i j then [(g.xs j + halfDeltaX g, g.ys i)] else [])

/-- `middleNeeded` (line 199): a middle vertex is used when the square has
more than two boundary points. -/
def middleNeeded (pts : List Pt) : Bool := pts.length > 2

/-- `middleOfSquare` (lines 202-204): the average of the square's boundary
points. -/
def middleOf (pts : List Pt) : Pt :=
  ((pts.map Prod.fst).sum / pts.length, (pts.map Prod.snd).sum / pts.length)

/-- The optional middle point a square routes its segments through. -/
def cellMid (g : Grid) (i j : ℕ) : Option Pt :=
  let pts := cellPoints g i j
  if middleNeeded pts then some (middleOf pts) else none

/-- `boundaryCoords` (lines 161-162) as the row-major list of per-square
batches, squares with no boundary points removed (the `-= set([()])`).
Python iterates the set in unspecified order; the embedding fixes row-major
generation order. -/
def boundaryBatches (g : Grid) : List (List Pt × Option Pt) :=
  (((List.range (g.rows - 1)).flatMap fun i =>
    (List.range (g.cols - 1)).map fun j => (cellPoints g i j, cellMid g i j)).filter
      fun b => !b.1.isEmpty)

/-- The whole stitching phase of `main` (lines 165-300) on a grid. -/
def stitchGrid (g : Grid) : Option (SState Pt) :=
  applyBatches (SState.empty Pt) (boundaryBatches g)

/-! ## `close_paths` (lines 417-566)

Open paths have both endpoints on the outer frame of the grid.  The closer
first closes paths whose start and end share an X or a Y coordinate (lines
455-473), then walks the remaining ones counter-clockwise around the frame
(lines 476-543).  The walk only adds, subtracts and compares coordinates, so
it is generic in the coordinate ring `K` (`ℚ` for the real pipeline, `ℤ` for
the canonical even lattice).  `np.allclose` is modelled as exact equality.

`test_clockwise` calls matplotlib's `Path.contains_point`, an external
primitive; the whole orientation test is abstracted as a parameter
`tcw : List Pt → Bool × ℕ` returning the CCW verdict and the enclosed
category value. -/

/-- One iteration of the first loop of `close_paths` (lines 457-472): decide
whether the open path starting at `i` is closed directly.  Returns the closed
vertex list and the enclosed value when it is. -/
def directlyClosed (tcw : List Pt → Bool × ℕ) (paths : List (Pt × List Pt))
    (i : Pt) : Option (List Pt × ℕ) := do
  let p ← alookup i paths
  let e ← p.getLast?
  if i.1 = e.1 ∨ i.2 = e.2 then
    let closed := p ++ [i]
    let r := tcw closed
    if r.1 then some (closed, r.2) else none
  else none

/-- The first loop of `close_paths` (lines 455-473): directly close the
qualifying open paths, and return (closed paths, their values, the remaining
open starting points). -/
def directClose (tcw : List Pt → Bool × ℕ) (paths : List (Pt × List Pt))
    (opens : List Pt) :
    List (Pt × List Pt) × List (Pt × ℕ) × List Pt :=
  ((opens.filterMap fun i => (directlyClosed tcw paths i).map fun c => (i, c.1)),
   (opens.filterMap fun i => (directlyClosed tcw paths i).map fun c => (i, c.2)),
   opens.filter fun i => (directlyClosed tcw paths i).isNone)

/-- The frame of the figure (lines 444-449): extreme coordinates, full and
half steps. -/
structure WFrame (K : Type) where
  xMin : K
  xMax : K
  dX : K
  hdX : K
  yMin : K
  yMax : K
  dY : K
  hdY : K
deriving Repr

/-- The walk's state: current position, current movement, remaining open
starting points, vertices accumulated so far. -/
structure WState (K : Type) where
  pos : K × K
  mvx : K
  mvy : K
  opens : List (K × K)
  acc : List (K × K)
deriving Repr

variable {K : Type} [CommRing K] [DecidableEq K]

/-- `currentXMovement` (lines 489, 505): `0` on the left/right edge,
`deltaX` on the bottom edge, `-deltaX` on the top edge. -/
def movX (f : WFrame K) (p : K × K) : K :=
  if p.1 = f.xMax ∨ p.1 = f.xMin then 0 else if p.2 = f.yMin then f.dX else -f.dX

/-- `currentYMovement` (lines 490, 506): `0` on the bottom/top edge,
`deltaY` on the right edge, `-deltaY` on the left edge. -/
def movY (f : WFrame K) (p : K × K) : K :=
  if p.2 = f.yMax ∨ p.2 = f.yMin then 0 else if p.1 = f.xMax then f.dY else -f.dY

/-- First half of a walk iteration (lines 491-507): advance one step and, if
an open path starts at the new position, absorb its vertices and jump to its
other end. -/
def jumpStep (f : WFrame K) (paths : List ((K × K) × List (K × K)))
    (st : WState K) : WState K :=
  let p1 : K × K := (st.pos.1 + st.mvx, st.pos.2 + st.mvy)
  if p1 ∈ st.opens then
    let absorbed := (alookup p1 paths).getD []
    let np := absorbed.getLast?.getD p1
    WState.mk np (movX f np) (movY f np) (st.opens.erase p1) (st.acc ++ absorbed)
  else
    WState.mk p1 st.mvx st.mvy st.opens st.acc

/-- Second half of a walk iteration (lines 509-540): turn at a frame corner
if the step overshot an edge, appending the corner and the first midpoint of
the next edge. -/
def cornerFix (f : WFrame K) (jmp : WState K) : WState K :=
  if jmp.pos.1 = f.xMax + f.hdX then
    -- past the bottom-right corner (lines 509-516)
    { pos := (f.xMax, f.yMin + f.hdY), mvx := 0, mvy := f.dY, opens := jmp.opens,
      acc := jmp.acc ++ [(f.xMax, f.yMin), (f.xMax, f.yMin + f.hdY)] }
  else if jmp.pos.1 = f.xMin - f.hdX then
    -- past the top-left corner (lines 517-524)
    { pos := (f.xMin, f.yMax - f.hdY), mvx := 0, mvy := -f.dY, opens := jmp.opens,
      acc := jmp.acc ++ [(f.xMin, f.yMax), (f.xMin, f.yMax - f.hdY)] }
  else if jmp.pos.2 = f.yMax + f.hdY then
    -- past the top-right corner (lines 525-532)
    { pos := (f.xMax - f.hdX, f.yMax), mvx := -f.dX, mvy := 0, opens := jmp.opens,
      acc := jmp.acc ++ [(f.xMax, f.yMax), (f.xMax - f.hdX, f.yMax)] }
  else if jmp.pos.2 = f.yMin - f.hdY then
    -- past the bottom-left corner (lines 533-540)
    { pos := (f.xMin + f.hdX, f.yMin), mvx := f.dX, mvy := 0, opens := jmp.opens,
      acc := jmp.acc ++ [(f.xMin, f.yMin), (f.xMin + f.hdX, f.yMin)] }
  else jmp

/-- One iteration of the frame walk (lines 491-540): advance one step, absorb
any open path starting at the new position, then turn at a frame corner if
the step overshot an edge. -/
def walkBody (f : WFrame K) (paths : List ((K × K) × List (K × K)))
    (st : WState K) : WState K :=
  cornerFix f (jumpStep f paths st)

/-- The walk loop (line 491): iterate `walkBody` until the starting point is
reached, with explicit fuel standing in for the `while` loop. -/
def walkLoop (f : WFrame K) (paths : List ((K × K) × List (K × K)))
    (start : K × K) : ℕ → WState K → Option (WState K)
  | 0, _ => none
  | fuel + 1, st =>
      if st.pos = start then some st
      else walkLoop f paths start fuel (walkBody f paths st)

/-- Close one open path by walking the frame (lines 477-543): start from the
path's own end and walk until its start is reached again. -/
def closeOneOpen (f : WFrame K) (paths : List ((K × K) × List (K × K)))
    (opens : List (K × K)) (start : K × K) (fuel : ℕ) : Option (WState K) :=
  let cp := (alookup start paths).getD []
  let p0 := cp.getLast?.getD start
  walkLoop f paths start fuel
    { pos := p0, mvx := movX f p0, mvy := movY f p0, opens := opens, acc := cp }

/-- The probe point whose grid value is the value enclosed by a
frame-completed path (lines 546-557): half a step clockwise from the
starting point, on the correct side of its frame edge. -/
def closeProbe (f : WFrame K) (start : K × K) : K × K :=
  if start.1 = f.xMin then (start.1, start.2 + f.hdY)
  else if start.1 = f.xMax then (start.1, start.2 - f.hdY)
  else if start.2 = f.yMin then (start.1 - f.hdX, start.2)
  else (start.1 + f.hdX, start.2)

/-- The second loop of `close_paths` (lines 476-566): repeatedly pop an open
starting point, walk it closed, and record the closed path and its enclosed
value.  The embedding pops in list order (Python pops a set in unspecified
order); `fuel` bounds each walk and the outer `n` bounds the number of pops. -/
def walkAll (f : WFrame K) (paths : List ((K × K) × List (K × K)))
    (zOf : K × K → ℕ) (fuel : ℕ) :
    ℕ → List (K × K) →
    Option (List ((K × K) × List (K × K)) × List ((K × K) × ℕ))
  | 0, opens => if opens.isEmpty then some ([], []) else none
  | _ + 1, [] => some ([], [])
  | n + 1, i :: rest => do
      let w ← closeOneOpen f paths rest i fuel
      let tl ← walkAll f paths zOf fuel n w.opens
      some (ainsert i (w.acc ++ [i]) tl.1, ainsert i (zOf (closeProbe f i)) tl.2)

/-! ## `calc_area_hierarchy` (lines 367-414)

The hierarchy computation only compares path identifiers and asks an
external containment oracle (matplotlib's `Path.contains_path`), so it is
generic in the identifier type `γ` with `contains : γ → γ → Bool` as a
parameter. -/

variable {γ : Type} [DecidableEq γ]

/-- `nested[i]` (lines 386-390): the path starts whose areas lie inside
`i`'s area, according to the containment oracle. -/
def nestedOf (pathStarts : List γ) (ctn : γ → γ → Bool) (i : γ) : List γ :=
  pathStarts.filter fun b => ctn i b

/-- One step of the greedy minimal cover (lines 405-410): add `j` to the
cover when it is not yet covered, and mark `j`'s nested areas as covered. -/
def hierStep (nested : γ → List γ) (acc : List γ × List γ) (jj : γ) :
    List γ × List γ :=
  ((if jj ∈ acc.2 then acc.1 else acc.1 ++ [jj]), acc.2 ++ nested jj)

/-- `remove[i]` (lines 396-412): sort `i`'s nested areas by their own nested
count, descending (`sorted(..., reverse=True)`, a stable sort), then greedily
keep the uncovered ones. -/
def removeOf (pathStarts : List γ) (ctn : γ → γ → Bool) (i : γ) : List γ :=
  (((nestedOf pathStarts ctn i).mergeSort fun a b =>
      (nestedOf pathStarts ctn b).length ≤ (nestedOf pathStarts ctn a).length).foldl
    (hierStep (nestedOf pathStarts ctn)) ([], [])).1

/-- `calc_area_hierarchy` (lines 367-414): the direct-children map. -/
def calcAreaHierarchy (pathStarts : List γ) (ctn : γ → γ → Bool) :
    List (γ × List γ) :=
  pathStarts.map fun i => (i, removeOf pathStarts ctn i)

/-- The direct-child relation recorded by `calc_area_hierarchy`:
`b` is a direct child of `a`. -/
def childRel (pathStarts : List γ) (ctn : γ → γ → Bool) (a b : γ) : Prop :=
  ∃ l, alookup a (calcAreaHierarchy pathStarts ctn) = some l ∧ b ∈ l

/-! ## The solid-fill emission (`main`, lines 318-359) -/

/-- The per-region emission step of the fill loop (lines 348-356): for region
`i`, append the reversed vertex list of each direct child to `i`'s stored
vertex list.  Because Python's `verts += ...` mutates `paths[i]` in place,
each append both reads from and writes back to the stored dictionary. -/
def emitOne (i : γ) (children : List γ) (paths : List (γ × List γ)) :
    Option (List (γ × List γ)) :=
  children.foldlM
    (fun ps jj => do
      let v ← alookup i ps
      let pj ← alookup jj ps
      some (ainsert i (v ++ pj.reverse) ps))
    paths

/-- The whole fill loop (lines 348-359): emit one polygon-with-holes per
region, returning the emitted vertex lists and the final stored paths. -/
def fillPatches (regionOrder : List γ) (removeMap : γ → List γ)
    (paths0 : List (γ × List γ)) :
    Option (List (List γ) × List (γ × List γ)) :=
  regionOrder.foldlM
    (fun acc i => do
      let ps1 ← emitOne i (removeMap i) acc.2
      let v ← alookup i ps1
      some (acc.1 ++ [v], ps1))
    ([], paths0)

/-- "Start and end lie on the same frame edge", written from the spec's words
(§4.3), for comparison with the code's direct-closure condition. -/
def specSameFrameEdge (f : WFrame ℚ) (p q : Pt) : Prop :=
  (p.1 = f.xMin ∧ q.1 = f.xMin) ∨ (p.1 = f.xMax ∧ q.1 = f.xMax) ∨
  (p.2 = f.yMin ∧ q.2 = f.yMin) ∨ (p.2 = f.yMax ∧ q.2 = f.yMax)

instance (f : WFrame ℚ) (p q : Pt) : Decidable (specSameFrameEdge f p q) := by
  unfold specSameFrameEdge
  infer_instance

/-! ## The assembled `fill == 2` pipeline (`main`, lines 318-359) -/

/-- `xCoords.min()` (line 444). -/
def xMinG (g : Grid) : ℚ := (((List.range g.cols).map g.xs).min?).getD 0

/-- `xCoords.max()` (line 445). -/
def xMaxG (g : Grid) : ℚ := (((List.range g.cols).map g.xs).max?).getD 0

/-- `yCoords.min()` (line 447). -/
def yMinG (g : Grid) : ℚ := (((List.range g.rows).map g.ys).min?).getD 0

/-- `yCoords.max()` (line 448). -/
def yMaxG (g : Grid) : ℚ := (((List.range g.rows).map g.ys).max?).getD 0

/-- The walk frame of a grid (lines 443-449). -/
def gridFrame (g : Grid) : WFrame ℚ :=
  { xMin := xMinG g, xMax := xMaxG g, dX := |g.xs 1 - g.xs 0|,
    hdX := halfDeltaX g, yMin := yMinG g, yMax := yMaxG g,
    dY := |g.ys 1 - g.ys 0|, hdY := halfDeltaY g }

/-- `np.where(xCoords.round(6) == x)` (lines 558, 685), idealised to exact
equality: the column index of an X coordinate. -/
def xIndexOf (g : Grid) (x : ℚ) : ℕ :=
  (List.range g.cols).findIdx fun c => g.xs c == x

/-- The row index of a Y coordinate (lines 559, 686). -/
def yIndexOf (g : Grid) (y : ℚ) : ℕ :=
  (List.range g.rows).findIdx fun r => g.ys r == y

/-- The grid value at a coordinate point (lines 558-560, 685-687). -/
def zAt (g : Grid) (p : Pt) : ℕ := g.z (yIndexOf g p.2) (xIndexOf g p.1)

/-- The solid-fill extraction (lines 318-359): stitch the boundary segments,
keep counter-clockwise already-closed loops, close the open paths
(`close_paths`), compute the containment hierarchy, and emit one
polygon-with-holes per region.  `tcw` abstracts `test_clockwise` and
`ctnP` abstracts matplotlib's `Path.contains_path`; `fuel` bounds the frame
walk. -/
def extractFill (g : Grid) (tcw : List Pt → Bool × ℕ)
    (ctnP : List Pt → List Pt → Bool) (fuel : ℕ) :
    Option (List (List Pt)) := do
  let st ← stitchGrid g
  -- lines 325-331: already-closed paths, keep the counter-clockwise ones
  let closedStarts := (st.sToE.filter fun p => p.1 == p.2).map Prod.fst
  let zmap1 ← closedStarts.foldlM
    (fun acc i => do
      let p ← alookup i st.paths
      let r := tcw p
      some (if r.1 then acc ++ [(i, r.2)] else acc))
    ([] : List (Pt × ℕ))
  -- lines 332-334: close the open paths
  let openStarts := (st.sToE.filter fun p => p.1 != p.2).map Prod.fst
  let dc := directClose tcw st.paths openStarts
  let wr ← walkAll (gridFrame g) st.paths (zAt g) fuel dc.2.2.length dc.2.2
  -- lines 335-339: merge the closed paths and value maps back in
  let paths2 := (dc.1 ++ wr.1).foldl (fun ps p => ainsert p.1 p.2 ps) st.paths
  let zmap := zmap1 ++ dc.2.1 ++ wr.2
  let starts := zmap.map Prod.fst
  -- line 345: the containment hierarchy
  let removeMap := calcAreaHierarchy starts fun a b =>
    ctnP ((alookup a paths2).getD []) ((alookup b paths2).getD [])
  -- lines 348-359: emit the patches
  let fp ← fillPatches starts (fun i => (alookup i removeMap).getD []) paths2
  some fp.1

/-! ## Termination of the frame walk (claim C6)

The walk is studied on the canonical even lattice: sample coordinates
`xs c = 2c`, `ys r = 2r`, so all full steps are `2`, all half steps are `1`
and every position is integral.  With `a = cols - 1 ≥ 1` and `b = rows - 1 ≥ 1`
the frame is `[0, 2a] × [0, 2b]` and the perimeter carries `2a + 2b` boundary
midpoints, visited counter-clockwise. -/

/-- The walk frame of the canonical even lattice with `a` columns of cells
and `b` rows of cells. -/
def latticeFrame (a b : ℤ) : WFrame ℤ :=
  { xMin := 0, xMax := 2 * a, dX := 2, hdX := 1,
    yMin := 0, yMax := 2 * b, dY := 2, hdY := 1 }

/-- Frame midpoints of the canonical lattice: the points where an open path
can start or end. -/
def IsMid (a b : ℤ) (p : ℤ × ℤ) : Prop :=
  (p.2 = 0 ∧ p.1 % 2 = 1 ∧ 1 ≤ p.1 ∧ p.1 ≤ 2 * a - 1) ∨
  (p.1 = 2 * a ∧ p.2 % 2 = 1 ∧ 1 ≤ p.2 ∧ p.2 ≤ 2 * b - 1) ∨
  (p.2 = 2 * b ∧ p.1 % 2 = 1 ∧ 1 ≤ p.1 ∧ p.1 ≤ 2 * a - 1) ∨
  (p.1 = 0 ∧ p.2 % 2 = 1 ∧ 1 ≤ p.2 ∧ p.2 ≤ 2 * b - 1)

instance (a b : ℤ) (p : ℤ × ℤ) : Decidable (IsMid a b p) := by
  unfold IsMid
  infer_instance

/-- The counter-clockwise perimeter index of a frame midpoint: bottom edge
first, then right, top and left. -/
def pIdx (a b : ℤ) (p : ℤ × ℤ) : ℤ :=
  if p.2 = 0 then (p.1 - 1) / 2
  else if p.1 = 2 * a then a + (p.2 - 1) / 2
  else if p.2 = 2 * b then a + b + (a - 1 - (p.1 - 1) / 2)
  else 2 * a + b + (b - 1 - (p.2 - 1) / 2)

/-- The walk invariant on the canonical lattice: the position is a frame
midpoint, the movement matches the position's edge, and every remaining
open starting point is a frame midpoint. -/
structure WalkInv (a b : ℤ) (st : WState ℤ) : Prop where
  mid : IsMid a b st.pos
  mx : st.mvx = movX (latticeFrame a b) st.pos
  my : st.mvy = movY (latticeFrame a b) st.pos
  mids : ∀ o ∈ st.opens, IsMid a b o

/-- Termination measure of the frame walk: open paths still to absorb,
then the counter-clockwise perimeter distance from the current position to
the target starting point. -/
def wMeasure (a b : ℤ) (start : ℤ × ℤ) (st : WState ℤ) : ℕ :=
  st.opens.length * (2 * a + 2 * b).toNat +
    (if pIdx a b st.pos ≤ pIdx a b start
      then pIdx a b start - pIdx a b st.pos
      else pIdx a b start - pIdx a b st.pos + (2 * a + 2 * b)).toNat

/-! ## Concrete grids and parameters used by counterexamples and witnesses -/

/-- A 2×2 grid with one constant category. -/
def gUniform : Grid := ⟨2, 2, fun c => (c : ℚ), fun r => (r : ℚ), fun _ _ => 0⟩

/-- The same grid with the constant category written differently. -/
def gUniform2 : Grid :=
  ⟨2, 2, fun c => (c : ℚ), fun r => (r : ℚ), fun r c => (r + c) * 0⟩

/-- A 2×2 grid split by a vertical category boundary: its single cell has
exactly two unequal sides. -/
def gVert : Grid :=
  ⟨2, 2, fun c => (c : ℚ), fun r => (r : ℚ), fun _ c => if c = 0 then 0 else 1⟩

/-- A 2×2 grid with a saddle cell: equal categories on each diagonal. -/
def gSaddle : Grid :=
  ⟨2, 2, fun c => (c : ℚ), fun r => (r : ℚ), fun r c => if r = c then 0 else 1⟩

/-- The walk frame of the 2×2 unit-step grids above. -/
def frame2 : WFrame ℚ := ⟨0, 2, 1, 1 / 2, 0, 2, 1, 1 / 2⟩

/-- A trivial orientation test: everything counter-clockwise, value `0`. -/
def tcwTrivial : List Pt → Bool × ℕ := fun _ => (true, 0)

/-- A trivial containment test: nothing contains anything. -/
def ctnTrivial : List Pt → List Pt → Bool := fun _ _ => false

/-! ## Theorems -/

theorem alookup_aerase {α β : Type} [DecidableEq α] (k a : α) (l : List (α × β)) :
    alookup a (aerase k l) = if k = a then none else alookup a l := by
  induction l with
  | nil => simp [aerase, alookup]
  | cons hd t ih =>
      obtain ⟨x, y⟩ := hd
      by_cases hxk : x = k
      · subst hxk
        simp only [aerase, if_pos rfl, ih]
        by_cases hxa : x = a
        · subst hxa
          simp [ih]
        · simp [hxa, ih, alookup]
      · simp only [aerase, if_neg hxk, alookup]
        by_cases hxa : x = a
        · have hka : ¬ k = a := fun h => hxk (hxa.trans h.symm)
          simp [hxa, hka]
        · simp [hxa, ih]

theorem alookup_ainsert {α β : Type} [DecidableEq α] (k a : α) (v : β)
    (l : List (α × β)) :
    alookup a (ainsert k v l) = if k = a then some v else alookup a l := by
  simp only [ainsert, alookup, alookup_aerase]
  by_cases h : k = a <;> simp [h]

theorem consistent_empty : Consistent (SState.empty α) := by
  refine ⟨?_, ?_, ?_, ?_⟩ <;> intro a b h <;> simp [SState.empty, alookup] at h

theorem head?_append_left {β : Type} {l m : List β} {a : β}
    (h : l.head? = some a) : (l ++ m).head? = some a := by
  cases l <;> simp_all

theorem getLast?_append_right {β : Type} {l m : List β} {a : β}
    (h : m.getLast? = some a) : (l ++ m).getLast? = some a := by
  have hm : m ≠ [] := by rintro rfl; simp at h
  rw [List.getLast?_append_of_ne_nil l hm]
  exact h

/-- Preservation of `Consistent` by a guarded stand-alone segment. -/
theorem opNewAloneChecked_consistent {mid : Option α} {j k : α}
    {st st' : SState α} (hc : Consistent st)
    (h : opNewAloneChecked mid j k st = some st') : Consistent st' := by
  unfold opNewAloneChecked at h
  split at h
  · exact absurd h (by simp)
  rename_i hg
  simp only [not_or, Option.not_isSome_iff_eq_none] at hg
  obtain ⟨hjk, hjs, hke⟩ := hg
  cases h
  unfold opNewAlone
  constructor
  · intro s e hse
    rw [alookup_ainsert] at hse
    by_cases hjs' : j = s
    · subst hjs'
      rw [if_pos rfl] at hse
      cases hse
      refine ⟨[j] ++ mid.toList ++ [k], ?_, by simp, ?_⟩
      · simp [alookup_ainsert]
      · exact getLast?_append_right (by simp)
    · rw [if_neg hjs'] at hse
      obtain ⟨v, hv, hh, hl⟩ := hc.startPath s e hse
      exact ⟨v, by rw [alookup_ainsert, if_neg hjs']; exact hv, hh, hl⟩
  · intro s e hse hes
    rw [alookup_ainsert] at hse
    by_cases hjs' : j = s
    · subst hjs'
      rw [if_pos rfl] at hse
      cases hse
      rw [alookup_ainsert, if_pos rfl]
    · rw [if_neg hjs'] at hse
      have hold := hc.startEnd s e hse hes
      by_cases hke' : k = e
      · subst hke'
        rw [hold] at hke
        cases hke
      · rw [alookup_ainsert, if_neg hke']
        exact hold
  · intro e s hes
    rw [alookup_ainsert] at hes
    by_cases hke' : k = e
    · subst hke'
      rw [if_pos rfl] at hes
      cases hes
      exact ⟨by rw [alookup_ainsert, if_pos rfl], fun h => hjk h.symm⟩
    · rw [if_neg hke'] at hes
      obtain ⟨h1, h2⟩ := hc.endStart e s hes
      refine ⟨?_, h2⟩
      by_cases hjs' : j = s
      · subst hjs'
        rw [hjs] at h1
        cases h1
      · rw [alookup_ainsert, if_neg hjs']
        exact h1
  · intro s v hv
    rw [alookup_ainsert] at hv ⊢
    by_cases hjs' : j = s
    · simp [hjs']
    · rw [if_neg hjs'] at hv
      rw [if_neg hjs']
      exact hc.pathsReg s v hv

/-- Preservation of `Consistent` by a guarded start extension. -/
theorem opExtendStartChecked_consistent {mid : Option α} {j k : α}
    {st st' : SState α} (hc : Consistent st)
    (h : opExtendStartChecked mid j k st = some st') : Consistent st' := by
  unfold opExtendStartChecked at h
  cases hek : alookup k st.sToE with
  | none => rw [hek] at h; simp at h
  | some eK =>
  rw [hek] at h
  simp only [Option.bind_eq_bind, Option.some_bind] at h
  split at h
  · simp at h
  rename_i hg
  simp only [not_or, Option.not_isSome_iff_eq_none] at hg
  obtain ⟨hjk, hjeK, heKk, hjsE⟩ := hg
  obtain ⟨pk, hpk, hpkh, hpkl⟩ := hc.startPath k eK hek
  rw [opExtendStart, hek] at h
  simp only [Option.bind_eq_bind, Option.some_bind] at h
  rw [hpk] at h
  simp only [Option.bind_eq_bind, Option.some_bind] at h
  cases h
  constructor
  · intro s e hse
    rw [alookup_ainsert] at hse
    by_cases hjs : j = s
    · subst hjs
      rw [if_pos rfl] at hse
      cases hse
      refine ⟨[j] ++ mid.toList ++ pk, ?_, by simp, getLast?_append_right hpkl⟩
      rw [alookup_aerase, if_neg (fun hh => hjk hh.symm), alookup_ainsert,
        if_pos rfl]
    · rw [if_neg hjs, alookup_aerase] at hse
      by_cases hks : k = s
      · rw [if_pos hks] at hse
        cases hse
      · rw [if_neg hks] at hse
        obtain ⟨v, hv, hh, hl⟩ := hc.startPath s e hse
        refine ⟨v, ?_, hh, hl⟩
        rw [alookup_aerase, if_neg hks, alookup_ainsert, if_neg hjs]
        exact hv
  · intro s e hse hes
    rw [alookup_ainsert] at hse
    by_cases hjs : j = s
    · subst hjs
      rw [if_pos rfl] at hse
      cases hse
      rw [alookup_ainsert, if_pos rfl]
    · rw [if_neg hjs, alookup_aerase] at hse
      by_cases hks : k = s
      · rw [if_pos hks] at hse
        cases hse
      · rw [if_neg hks] at hse
        have hold := hc.startEnd s e hse hes
        by_cases heKe : eK = e
        · subst heKe
          have hkrec := hc.startEnd k eK hek (fun hh => heKk hh)
          rw [hold] at hkrec
          cases hkrec
          exact absurd rfl hks
        · rw [alookup_ainsert, if_neg heKe]
          exact hold
  · intro e s hes
    rw [alookup_ainsert] at hes
    by_cases heKe : eK = e
    · subst heKe
      rw [if_pos rfl] at hes
      cases hes
      exact ⟨by rw [alookup_ainsert, if_pos rfl], fun hh => hjeK hh.symm⟩
    · rw [if_neg heKe] at hes
      obtain ⟨h1, h2⟩ := hc.endStart e s hes
      refine ⟨?_, h2⟩
      by_cases hjs : j = s
      · subst hjs
        rw [hjsE] at h1
        cases h1
      · by_cases hks : k = s
        · subst hks
          rw [hek] at h1
          cases h1
          exact absurd rfl heKe
        · rw [alookup_ainsert, if_neg hjs, alookup_aerase, if_neg hks]
          exact h1
  · intro s v hv
    rw [alookup_aerase] at hv
    by_cases hks : k = s
    · rw [if_pos hks] at hv
      cases hv
    · rw [if_neg hks, alookup_ainsert] at hv
      rw [alookup_ainsert]
      by_cases hjs : j = s
      · simp [hjs]
      · rw [if_neg hjs] at hv
        rw [if_neg hjs, alookup_aerase, if_neg hks]
        exact hc.pathsReg s v hv

/-- Preservation of `Consistent` by a guarded end extension. -/
theorem opExtendEndChecked_consistent {mid : Option α} {j k : α}
    {st st' : SState α} (hc : Consistent st)
    (h : opExtendEndChecked mid j k st = some st') : Consistent st' := by
  unfold opExtendEndChecked at h
  cases hsj : alookup j st.eToS with
  | none => rw [hsj] at h; simp at h
  | some sJ =>
  rw [hsj] at h
  simp only [Option.bind_eq_bind, Option.some_bind] at h
  split at h
  · simp at h
  rename_i hg
  simp only [not_or, Option.not_isSome_iff_eq_none] at hg
  obtain ⟨hjk, hksJ, hkeTS⟩ := hg
  obtain ⟨hsje, hjsj⟩ := hc.endStart j sJ hsj
  obtain ⟨pj, hpj, hpjh, hpjl⟩ := hc.startPath sJ j hsje
  rw [opExtendEnd, hsj] at h
  simp only [Option.bind_eq_bind, Option.some_bind] at h
  rw [hpj] at h
  simp only [Option.bind_eq_bind, Option.some_bind] at h
  cases h
  constructor
  · intro s e hse
    rw [alookup_ainsert] at hse
    by_cases hsJs : sJ = s
    · subst hsJs
      rw [if_pos rfl] at hse
      cases hse
      refine ⟨pj ++ mid.toList ++ [k], ?_, head?_append_left (head?_append_left hpjh),
        getLast?_append_right (by simp)⟩
      rw [alookup_ainsert, if_pos rfl]
    · rw [if_neg hsJs] at hse
      obtain ⟨v, hv, hh, hl⟩ := hc.startPath s e hse
      refine ⟨v, ?_, hh, hl⟩
      rw [alookup_ainsert, if_neg hsJs]
      exact hv
  · intro s e hse hes
    rw [alookup_ainsert] at hse
    by_cases hsJs : sJ = s
    · subst hsJs
      rw [if_pos rfl] at hse
      cases hse
      rw [alookup_ainsert, if_pos rfl]
    · rw [if_neg hsJs] at hse
      have hold := hc.startEnd s e hse hes
      by_cases hke : k = e
      · subst hke
        rw [alookup_aerase, if_neg hjk, hold] at hkeTS
        cases hkeTS
      · by_cases hje : j = e
        · subst hje
          rw [hsj] at hold
          cases hold
          exact absurd rfl hsJs
        · rw [alookup_ainsert, if_neg hke, alookup_aerase, if_neg hje]
          exact hold
  · intro e s hes
    rw [alookup_ainsert] at hes
    by_cases hke : k = e
    · subst hke
      rw [if_pos rfl] at hes
      cases hes
      exact ⟨by rw [alookup_ainsert, if_pos rfl], fun hh => hksJ hh⟩
    · rw [if_neg hke, alookup_aerase] at hes
      by_cases hje : j = e
      · rw [if_pos hje] at hes
        cases hes
      · rw [if_neg hje] at hes
        obtain ⟨h1, h2⟩ := hc.endStart e s hes
        refine ⟨?_, h2⟩
        by_cases hsJs : sJ = s
        · subst hsJs
          rw [hsje] at h1
          cases h1
          exact absurd rfl hje
        · rw [alookup_ainsert, if_neg hsJs]
          exact h1
  · intro s v hv
    rw [alookup_ainsert] at hv
    rw [alookup_ainsert]
    by_cases hsJs : sJ = s
    · simp [hsJs]
    · rw [if_neg hsJs] at hv
      rw [if_neg hsJs]
      exact hc.pathsReg s v hv

/-- Preservation of `Consistent` by a guarded gap fill. -/
theorem opFillGapChecked_consistent {mid : Option α} {j k : α}
    {st st' : SState α} (hc : Consistent st)
    (h : opFillGapChecked mid j k st = some st') : Consistent st' := by
  unfold opFillGapChecked at h
  cases hek : alookup k st.sToE with
  | none => rw [hek] at h; simp at h
  | some eK =>
  rw [hek] at h
  simp only [Option.bind_eq_bind, Option.some_bind] at h
  cases hsj : alookup j st.eToS with
  | none => rw [hsj] at h; simp at h
  | some sJ =>
  rw [hsj] at h
  simp only [Option.bind_eq_bind, Option.some_bind] at h
  split at h
  · simp at h
  rename_i hg
  simp only [not_or] at hg
  obtain ⟨hjk, heKk, hg3⟩ := hg
  obtain ⟨hsje, hjsj⟩ := hc.endStart j sJ hsj
  obtain ⟨sp, hsp, hsph, hspl⟩ := hc.startPath sJ j hsje
  rw [opFillGap, hek] at h
  simp only [Option.bind_eq_bind, Option.some_bind] at h
  rw [hsj] at h
  simp only [Option.bind_eq_bind, Option.some_bind] at h
  rw [hsp] at h
  simp only [Option.bind_eq_bind, Option.some_bind] at h
  split at h
  · -- genuine splice: eK ≠ j
    rename_i hne
    have heKsJ : ¬ eK = sJ := fun hh => hg3 ⟨hne, hh⟩
    have hsJk : ¬ sJ = k := by
      intro hh
      rw [hh, hek] at hsje
      exact hne (Option.some.inj hsje)
    obtain ⟨pk0, hpk, hpkh, hpkl⟩ := hc.startPath k eK hek
    rw [hpk] at h
    simp only [Option.bind_eq_bind, Option.some_bind] at h
    rw [if_neg (fun hh => hsJk hh.symm)] at h
    cases h
    constructor
    · intro s e hse
      rw [alookup_ainsert] at hse
      by_cases hsJs : sJ = s
      · subst hsJs
        rw [if_pos rfl] at hse
        cases hse
        refine ⟨sp ++ mid.toList ++ pk0, ?_,
          head?_append_left (head?_append_left hsph), getLast?_append_right hpkl⟩
        rw [alookup_aerase, if_neg (fun hh => hsJk hh.symm), alookup_ainsert,
          if_pos rfl]
      · rw [if_neg hsJs, alookup_aerase] at hse
        by_cases hks : k = s
        · rw [if_pos hks] at hse
          cases hse
        · rw [if_neg hks] at hse
          obtain ⟨v, hv, hh, hl⟩ := hc.startPath s e hse
          refine ⟨v, ?_, hh, hl⟩
          rw [alookup_aerase, if_neg hks, alookup_ainsert, if_neg hsJs]
          exact hv
    · intro s e hse hes
      rw [alookup_ainsert] at hse
      by_cases hsJs : sJ = s
      · subst hsJs
        rw [if_pos rfl] at hse
        cases hse
        rw [alookup_ainsert, if_pos rfl]
      · rw [if_neg hsJs, alookup_aerase] at hse
        by_cases hks : k = s
        · rw [if_pos hks] at hse
          cases hse
        · rw [if_neg hks] at hse
          have hold := hc.startEnd s e hse hes
          by_cases heKe : eK = e
          · subst heKe
            have hkrec := hc.startEnd k eK hek (fun hh => heKk hh)
            rw [hold] at hkrec
            cases hkrec
            exact absurd rfl hks
          · by_cases hje : j = e
            · subst hje
              rw [hsj] at hold
              cases hold
              exact absurd rfl hsJs
            · rw [alookup_ainsert, if_neg heKe, alookup_aerase, if_neg hje]
              exact hold
    · intro e s hes
      rw [alookup_ainsert] at hes
      by_cases heKe : eK = e
      · subst heKe
        rw [if_pos rfl] at hes
        cases hes
        exact ⟨by rw [alookup_ainsert, if_pos rfl], fun hh => heKsJ hh⟩
      · rw [if_neg heKe, alookup_aerase] at hes
        by_cases hje : j = e
        · rw [if_pos hje] at hes
          cases hes
        · rw [if_neg hje] at hes
          obtain ⟨h1, h2⟩ := hc.endStart e s hes
          refine ⟨?_, h2⟩
          by_cases hsJs : sJ = s
          · subst hsJs
            rw [hsje] at h1
            cases h1
            exact absurd rfl hje
          · by_cases hks : k = s
            · subst hks
              rw [hek] at h1
              cases h1
              exact absurd rfl heKe
            · rw [alookup_ainsert, if_neg hsJs, alookup_aerase, if_neg hks]
              exact h1
    · intro s v hv
      rw [alookup_aerase] at hv
      by_cases hks : k = s
      · rw [if_pos hks] at hv
        cases hv
      · rw [if_neg hks, alookup_ainsert] at hv
        rw [alookup_ainsert]
        by_cases hsJs : sJ = s
        · simp [hsJs]
        · rw [if_neg hsJs] at hv
          rw [if_neg hsJs, alookup_aerase, if_neg hks]
          exact hc.pathsReg s v hv
  · -- loop closure: eK = j
    rename_i hyp
    have heKj : eK = j := not_not.mp hyp
    have hsJk : sJ = k := by
      have hkrec := hc.startEnd k eK hek (fun hh => heKk hh)
      rw [heKj, hsj] at hkrec
      exact Option.some.inj hkrec
    subst hsJk
    cases h
    constructor
    · intro s e hse
      rw [alookup_ainsert] at hse
      by_cases hks : sJ = s
      · subst hks
        rw [if_pos rfl] at hse
        cases hse
        refine ⟨sp ++ mid.toList ++ [sJ], ?_,
          head?_append_left (head?_append_left hsph), getLast?_append_right (by simp)⟩
        rw [alookup_ainsert, if_pos rfl]
      · rw [if_neg hks, alookup_aerase, if_neg hks] at hse
        obtain ⟨v, hv, hh, hl⟩ := hc.startPath s e hse
        refine ⟨v, ?_, hh, hl⟩
        rw [alookup_ainsert, if_neg hks]
        exact hv
    · intro s e hse hes
      rw [alookup_ainsert] at hse
      by_cases hks : sJ = s
      · subst hks
        rw [if_pos rfl] at hse
        cases hse
        exact absurd rfl hes
      · rw [if_neg hks, alookup_aerase, if_neg hks] at hse
        have hold := hc.startEnd s e hse hes
        by_cases hje : j = e
        · subst hje
          rw [hsj] at hold
          cases hold
          exact absurd rfl hks
        · rw [alookup_aerase, if_neg hje]
          exact hold
    · intro e s hes
      rw [alookup_aerase] at hes
      by_cases hje : j = e
      · rw [if_pos hje] at hes
        cases hes
      · rw [if_neg hje] at hes
        obtain ⟨h1, h2⟩ := hc.endStart e s hes
        refine ⟨?_, h2⟩
        by_cases hks : sJ = s
        · subst hks
          rw [hek] at h1
          cases h1
          exact absurd heKj.symm hje
        · rw [alookup_ainsert, if_neg hks, alookup_aerase, if_neg hks]
          exact h1
    · intro s v hv
      rw [alookup_ainsert] at hv
      rw [alookup_ainsert]
      by_cases hks : sJ = s
      · simp [hks]
      · rw [if_neg hks] at hv
        rw [if_neg hks, alookup_aerase, if_neg hks]
        exact hc.pathsReg s v hv

theorem foldlM_preserve {P : SState α → Prop}
    {f : SState α → α × α → Option (SState α)}
    (hf : ∀ s jk s2, P s → f s jk = some s2 → P s2) :
    ∀ (l : List (α × α)) (st st' : SState α), P st →
      l.foldlM f st = some st' → P st'
  | [], st, st', hc, h => by
      simp only [List.foldlM_nil] at h
      cases h
      exact hc
  | x :: t, st, st', hc, h => by
      rw [List.foldlM_cons] at h
      cases hfx : f st x with
      | none => rw [hfx] at h; simp at h
      | some s1 =>
          rw [hfx] at h
          simp only [Option.bind_eq_bind, Option.some_bind] at h
          exact foldlM_preserve hf t s1 st' (hf st x s1 hc hfx) h

/-- Preservation of `Consistent` by a whole guarded batch. -/
theorem applyBatchChecked_consistent {st st' : SState α} {pts : List α}
    {mid : Option α} (hc : Consistent st)
    (h : applyBatchChecked st pts mid = some st') : Consistent st' := by
  simp only [applyBatchChecked] at h
  rw [Option.bind_eq_bind, Option.bind_eq_some] at h
  obtain ⟨st1, h1, h⟩ := h
  rw [Option.bind_eq_some] at h
  obtain ⟨st2, h2, h⟩ := h
  rw [Option.bind_eq_some] at h
  obtain ⟨st3, h3, h⟩ := h
  have hc1 := foldlM_preserve
    (fun s jk s2 hcs hs => opFillGapChecked_consistent hcs hs) _ _ _ hc h1
  have hc2 := foldlM_preserve
    (fun s jk s2 hcs hs => opExtendStartChecked_consistent hcs hs) _ _ _ hc1 h2
  have hc3 := foldlM_preserve
    (fun s jk s2 hcs hs => opExtendEndChecked_consistent hcs hs) _ _ _ hc2 h3
  exact foldlM_preserve
    (fun s jk s2 hcs hs => opNewAloneChecked_consistent hcs hs) _ _ _ hc3 h

/-- Preservation of `Consistent` along a whole guarded batch sequence: the
bookkeeping maps are mutually consistent after every square's batch. -/
theorem applyBatchesChecked_consistent :
    ∀ (bs : List (List α × Option α)) (st st' : SState α), Consistent st →
      applyBatchesChecked st bs = some st' → Consistent st'
  | [], st, st', hc, h => by
      simp only [applyBatchesChecked] at h
      cases h
      exact hc
  | b :: bs, st, st', hc, h => by
      simp only [applyBatchesChecked] at h
      rw [Option.bind_eq_bind, Option.bind_eq_some] at h
      obtain ⟨st1, h1, h⟩ := h
      exact applyBatchesChecked_consistent bs st1 st'
        (applyBatchChecked_consistent hc h1) h

theorem mem_of_getLast? {β : Type} :
    ∀ {l : List β} {a : β}, l.getLast? = some a → a ∈ l
  | [], _, h => by simp at h
  | [x], _, h => by simp_all
  | _ :: y :: t, a, h => by
      rw [List.getLast?_cons_cons] at h
      exact List.mem_cons_of_mem _ (mem_of_getLast? h)

theorem mem_of_head? {β : Type} {l : List β} {a : β} (h : l.head? = some a) :
    a ∈ l := by
  cases l <;> simp_all

/-- Vertex conservation for a guarded stand-alone segment. -/
theorem opNewAloneChecked_verts {mid : Option α} {j k : α} {st st' : SState α}
    (hc : Consistent st) (h : opNewAloneChecked mid j k st = some st') :
    (∀ x, InVerts st x → InVerts st' x) ∧ InVerts st' j ∧ InVerts st' k := by
  unfold opNewAloneChecked at h
  split at h
  · simp at h
  rename_i hg
  simp only [not_or, Option.not_isSome_iff_eq_none] at hg
  obtain ⟨hjk, hjs, hke⟩ := hg
  have hjp : alookup j st.paths = none := by
    cases hv : alookup j st.paths with
    | none => rfl
    | some v => have := hc.pathsReg j v hv; rw [hjs] at this; simp at this
  cases h
  refine ⟨?_, ⟨j, [j] ++ mid.toList ++ [k], ?_, by simp⟩,
    ⟨j, [j] ++ mid.toList ++ [k], ?_, by simp⟩⟩
  · rintro x ⟨s, v, hv, hx⟩
    refine ⟨s, v, ?_, hx⟩
    rw [opNewAlone]
    by_cases hjs' : j = s
    · subst hjs'
      rw [hjp] at hv
      cases hv
    · rw [alookup_ainsert, if_neg hjs']
      exact hv
  · rw [opNewAlone, alookup_ainsert, if_pos rfl]
  · rw [opNewAlone, alookup_ainsert, if_pos rfl]

/-- Vertex conservation for a guarded start extension. -/
theorem opExtendStartChecked_verts {mid : Option α} {j k : α} {st st' : SState α}
    (hc : Consistent st) (h : opExtendStartChecked mid j k st = some st') :
    (∀ x, InVerts st x → InVerts st' x) ∧ InVerts st' j ∧ InVerts st' k := by
  unfold opExtendStartChecked at h
  cases hek : alookup k st.sToE with
  | none => rw [hek] at h; simp at h
  | some eK =>
  rw [hek] at h
  simp only [Option.bind_eq_bind, Option.some_bind] at h
  split at h
  · simp at h
  rename_i hg
  simp only [not_or, Option.not_isSome_iff_eq_none] at hg
  obtain ⟨hjk, hjeK, heKk, hjsE⟩ := hg
  obtain ⟨pk, hpk, hpkh, hpkl⟩ := hc.startPath k eK hek
  have hjp : alookup j st.paths = none := by
    cases hv : alookup j st.paths with
    | none => rfl
    | some v => have := hc.pathsReg j v hv; rw [hjsE] at this; simp at this
  rw [opExtendStart, hek] at h
  simp only [Option.bind_eq_bind, Option.some_bind] at h
  rw [hpk] at h
  simp only [Option.bind_eq_bind, Option.some_bind] at h
  cases h
  have hlook : alookup j
      (aerase k (ainsert j ([j] ++ mid.toList ++ pk) st.paths)) =
      some ([j] ++ mid.toList ++ pk) := by
    rw [alookup_aerase, if_neg (fun hh => hjk hh.symm), alookup_ainsert, if_pos rfl]
  refine ⟨?_, ⟨j, _, hlook, by simp⟩, ⟨j, _, hlook, ?_⟩⟩
  · rintro x ⟨s, v, hv, hx⟩
    by_cases hks : k = s
    · subst hks
      rw [hpk] at hv
      cases hv
      exact ⟨j, _, hlook, by simp [hx]⟩
    · by_cases hjs' : j = s
      · subst hjs'
        rw [hjp] at hv
        cases hv
      · refine ⟨s, v, ?_, hx⟩
        rw [alookup_aerase, if_neg hks, alookup_ainsert, if_neg hjs']
        exact hv
  · simp [mem_of_head? hpkh]

/-- Vertex conservation for a guarded end extension. -/
theorem opExtendEndChecked_verts {mid : Option α} {j k : α} {st st' : SState α}
    (hc : Consistent st) (h : opExtendEndChecked mid j k st = some st') :
    (∀ x, InVerts st x → InVerts st' x) ∧ InVerts st' j ∧ InVerts st' k := by
  unfold opExtendEndChecked at h
  cases hsj : alookup j st.eToS with
  | none => rw [hsj] at h; simp at h
  | some sJ =>
  rw [hsj] at h
  simp only [Option.bind_eq_bind, Option.some_bind] at h
  split at h
  · simp at h
  rename_i hg
  obtain ⟨hsje, hjsj⟩ := hc.endStart j sJ hsj
  obtain ⟨pj, hpj, hpjh, hpjl⟩ := hc.startPath sJ j hsje
  rw [opExtendEnd, hsj] at h
  simp only [Option.bind_eq_bind, Option.some_bind] at h
  rw [hpj] at h
  simp only [Option.bind_eq_bind, Option.some_bind] at h
  cases h
  have hlook : alookup sJ (ainsert sJ (pj ++ mid.toList ++ [k]) st.paths) =
      some (pj ++ mid.toList ++ [k]) := by
    rw [alookup_ainsert, if_pos rfl]
  refine ⟨?_, ⟨sJ, _, hlook, by simp [mem_of_getLast? hpjl]⟩,
    ⟨sJ, _, hlook, by simp⟩⟩
  rintro x ⟨s, v, hv, hx⟩
  by_cases hss : sJ = s
  · subst hss
    rw [hpj] at hv
    cases hv
    exact ⟨sJ, _, hlook, by simp [hx]⟩
  · refine ⟨s, v, ?_, hx⟩
    rw [alookup_ainsert, if_neg hss]
    exact hv

/-- Vertex conservation for a guarded gap fill. -/
theorem opFillGapChecked_verts {mid : Option α} {j k : α} {st st' : SState α}
    (hc : Consistent st) (h : opFillGapChecked mid j k st = some st') :
    (∀ x, InVerts st x → InVerts st' x) ∧ InVerts st' j ∧ InVerts st' k := by
  unfold opFillGapChecked at h
  cases hek : alookup k st.sToE with
  | none => rw [hek] at h; simp at h
  | some eK =>
  rw [hek] at h
  simp only [Option.bind_eq_bind, Option.some_bind] at h
  cases hsj : alookup j st.eToS with
  | none => rw [hsj] at h; simp at h
  | some sJ =>
  rw [hsj] at h
  simp only [Option.bind_eq_bind, Option.some_bind] at h
  split at h
  · simp at h
  rename_i hg
  simp only [not_or] at hg
  obtain ⟨hjk, heKk, hg3⟩ := hg
  obtain ⟨hsje, hjsj⟩ := hc.endStart j sJ hsj
  obtain ⟨sp, hsp, hsph, hspl⟩ := hc.startPath sJ j hsje
  rw [opFillGap, hek] at h
  simp only [Option.bind_eq_bind, Option.some_bind] at h
  rw [hsj] at h
  simp only [Option.bind_eq_bind, Option.some_bind] at h
  rw [hsp] at h
  simp only [Option.bind_eq_bind, Option.some_bind] at h
  split at h
  · -- genuine splice
    rename_i hne
    have hsJk : ¬ sJ = k := by
      intro hh
      rw [hh, hek] at hsje
      exact hne (Option.some.inj hsje)
    obtain ⟨pk0, hpk, hpkh, hpkl⟩ := hc.startPath k eK hek
    rw [hpk] at h
    simp only [Option.bind_eq_bind, Option.some_bind] at h
    rw [if_neg (fun hh => hsJk hh.symm)] at h
    cases h
    have hlook : alookup sJ
        (aerase k (ainsert sJ (sp ++ mid.toList ++ pk0) st.paths)) =
        some (sp ++ mid.toList ++ pk0) := by
      rw [alookup_aerase, if_neg (fun hh => hsJk hh.symm), alookup_ainsert,
        if_pos rfl]
    refine ⟨?_, ⟨sJ, _, hlook, by simp [mem_of_getLast? hspl]⟩,
      ⟨sJ, _, hlook, by simp [mem_of_head? hpkh]⟩⟩
    rintro x ⟨s, v, hv, hx⟩
    by_cases hks : k = s
    · subst hks
      rw [hpk] at hv
      cases hv
      exact ⟨sJ, _, hlook, by simp [hx]⟩
    · by_cases hss : sJ = s
      · subst hss
        rw [hsp] at hv
        cases hv
        exact ⟨sJ, _, hlook, by simp [hx]⟩
      · refine ⟨s, v, ?_, hx⟩
        rw [alookup_aerase, if_neg hks, alookup_ainsert, if_neg hss]
        exact hv
  · -- loop closure
    rename_i hyp
    have heKj : eK = j := not_not.mp hyp
    have hsJk : sJ = k := by
      have hkrec := hc.startEnd k eK hek (fun hh => heKk hh)
      rw [heKj, hsj] at hkrec
      exact Option.some.inj hkrec
    subst hsJk
    cases h
    have hlook : alookup sJ (ainsert sJ (sp ++ mid.toList ++ [sJ]) st.paths) =
        some (sp ++ mid.toList ++ [sJ]) := by
      rw [alookup_ainsert, if_pos rfl]
    refine ⟨?_, ⟨sJ, _, hlook, by simp [mem_of_getLast? hspl]⟩,
      ⟨sJ, _, hlook, by simp⟩⟩
    rintro x ⟨s, v, hv, hx⟩
    by_cases hss : sJ = s
    · subst hss
      rw [hsp] at hv
      cases hv
      exact ⟨sJ, _, hlook, by simp [hx]⟩
    · refine ⟨s, v, ?_, hx⟩
      rw [alookup_ainsert, if_neg hss]
      exact hv

theorem foldlM_verts {f : SState α → α × α → Option (SState α)}
    (hcons : ∀ s t s2, Consistent s → f s t = some s2 → Consistent s2)
    (hstep : ∀ s t s2, Consistent s → f s t = some s2 →
      (∀ x, InVerts s x → InVerts s2 x) ∧ InVerts s2 t.1 ∧ InVerts s2 t.2) :
    ∀ (l : List (α × α)) (st st' : SState α), Consistent st →
      l.foldlM f st = some st' →
      (∀ x, InVerts st x → InVerts st' x) ∧
      ∀ t ∈ l, InVerts st' t.1 ∧ InVerts st' t.2
  | [], st, st', _, h => by
      simp only [List.foldlM_nil] at h
      cases h
      exact ⟨fun _ hx => hx, by simp⟩
  | x :: t, st, st', hc, h => by
      rw [List.foldlM_cons] at h
      cases hfx : f st x with
      | none => rw [hfx] at h; simp at h
      | some s1 =>
          rw [hfx] at h
          simp only [Option.bind_eq_bind, Option.some_bind] at h
          obtain ⟨hmono, hj, hk⟩ := hstep st x s1 hc hfx
          obtain ⟨hmono2, hrest⟩ :=
            foldlM_verts hcons hstep t s1 st' (hcons st x s1 hc hfx) h
          refine ⟨fun y hy => hmono2 y (hmono y hy), ?_⟩
          intro u hu
          rcases List.mem_cons.mp hu with hu | hu


          · cases hu
            exact ⟨hmono2 _ hj, hmono2 _ hk⟩
          · exact hrest u hu

/-- Every segment has one of the four classes. -/
theorem segClass_cases (st0 : SState α) (t : α × α) :
    segClass st0 t = 0 ∨ segClass st0 t = 1 ∨ segClass st0 t = 2 ∨
      segClass st0 t = 3 := by
  unfold segClass
  simp only []
  split_ifs <;> simp

/-- Vertex conservation for a whole guarded batch: no stored vertex is lost
and both endpoints of every chain segment are stored afterwards. -/
theorem applyBatchChecked_verts {st st' : SState α} {pts : List α}
    {mid : Option α} (hc : Consistent st)
    (h : applyBatchChecked st pts mid = some st') :
    (∀ x, InVerts st x → InVerts st' x) ∧
    ∀ t ∈ chainOf pts, InVerts st' t.1 ∧ InVerts st' t.2 := by
  simp only [applyBatchChecked] at h
  rw [Option.bind_eq_bind, Option.bind_eq_some] at h
  obtain ⟨st1, h1, h⟩ := h
  rw [Option.bind_eq_some] at h
  obtain ⟨st2, h2, h⟩ := h
  rw [Option.bind_eq_some] at h
  obtain ⟨st3, h3, h⟩ := h
  have hc1 := foldlM_preserve
    (fun s jk s2 hcs hs => opFillGapChecked_consistent hcs hs) _ _ _ hc h1
  have hc2 := foldlM_preserve
    (fun s jk s2 hcs hs => opExtendStartChecked_consistent hcs hs) _ _ _ hc1 h2
  have hc3 := foldlM_preserve
    (fun s jk s2 hcs hs => opExtendEndChecked_consistent hcs hs) _ _ _ hc2 h3
  obtain ⟨hm1, hv1⟩ := foldlM_verts
    (fun s jk s2 hcs hs => opFillGapChecked_consistent hcs hs)
    (fun s jk s2 hcs hs => opFillGapChecked_verts hcs hs) _ _ _ hc h1
  obtain ⟨hm2, hv2⟩ := foldlM_verts
    (fun s jk s2 hcs hs => opExtendStartChecked_consistent hcs hs)
    (fun s jk s2 hcs hs => opExtendStartChecked_verts hcs hs) _ _ _ hc1 h2
  obtain ⟨hm3, hv3⟩ := foldlM_verts
    (fun s jk s2 hcs hs => opExtendEndChecked_consistent hcs hs)
    (fun s jk s2 hcs hs => opExtendEndChecked_verts hcs hs) _ _ _ hc2 h3
  obtain ⟨hm4, hv4⟩ := foldlM_verts
    (fun s jk s2 hcs hs => opNewAloneChecked_consistent hcs hs)
    (fun s jk s2 hcs hs => opNewAloneChecked_verts hcs hs) _ _ _ hc3 h
  refine ⟨fun x hx => hm4 x (hm3 x (hm2 x (hm1 x hx))), ?_⟩
  intro t ht
  rcases segClass_cases st t with h0 | h0 | h0 | h0
  · exact hv4 t (List.mem_filter.mpr ⟨ht, by simp [h0]⟩)
  · obtain ⟨ha, hb⟩ := hv1 t (List.mem_filter.mpr ⟨ht, by simp [h0]⟩)
    exact ⟨hm4 _ (hm3 _ (hm2 _ ha)), hm4 _ (hm3 _ (hm2 _ hb))⟩
  · obtain ⟨ha, hb⟩ := hv2 t (List.mem_filter.mpr ⟨ht, by simp [h0]⟩)
    exact ⟨hm4 _ (hm3 _ ha), hm4 _ (hm3 _ hb)⟩
  · obtain ⟨ha, hb⟩ := hv3 t (List.mem_filter.mpr ⟨ht, by simp [h0]⟩)
    exact ⟨hm4 _ ha, hm4 _ hb⟩

/-- Vertex conservation for a guarded batch sequence: no stored vertex is
ever lost, and every endpoint of every segment of every batch occurs in the
final set of paths. -/
theorem applyBatchesChecked_verts :
    ∀ (bs : List (List α × Option α)) (st st' : SState α), Consistent st →
      applyBatchesChecked st bs = some st' →
      (∀ x, InVerts st x → InVerts st' x) ∧
      ∀ b ∈ bs, ∀ t ∈ chainOf b.1, InVerts st' t.1 ∧ InVerts st' t.2
  | [], st, st', _, h => by
      simp only [applyBatchesChecked] at h
      cases h
      exact ⟨fun _ hx => hx, by simp⟩
  | b :: bs, st, st', hc, h => by
      simp only [applyBatchesChecked] at h
      rw [Option.bind_eq_bind, Option.bind_eq_some] at h
      obtain ⟨st1, h1, h⟩ := h
      have hc1 := applyBatchChecked_consistent hc h1
      obtain ⟨hm1, hv1⟩ := applyBatchChecked_verts hc h1
      obtain ⟨hm2, hv2⟩ := applyBatchesChecked_verts bs st1 st' hc1 h
      refine ⟨fun x hx => hm2 x (hm1 x hx), ?_⟩
      intro b2 hb2 t ht
      rcases List.mem_cons.mp hb2 with hb2 | hb2
      · subst hb2
        obtain ⟨ha, hb⟩ := hv1 t ht
        exact ⟨hm2 _ ha, hm2 _ hb⟩
      · exact hv2 b2 hb2 t ht

/-! ### The guarded run refines the source's run

When every guard passes, the guarded operations perform exactly the updates of
the source's (unguarded) dictionary code. -/

theorem opFillGapChecked_le {mid : Option α} {j k : α} {st st' : SState α}
    (h : opFillGapChecked mid j k st = some st') :
    opFillGap mid j k st = some st' := by
  unfold opFillGapChecked at h
  cases hek : alookup k st.sToE with
  | none => rw [hek] at h; simp at h
  | some eK =>
  rw [hek] at h
  simp only [Option.bind_eq_bind, Option.some_bind] at h
  cases hsj : alookup j st.eToS with
  | none => rw [hsj] at h; simp at h
  | some sJ =>
  rw [hsj] at h
  simp only [Option.bind_eq_bind, Option.some_bind] at h
  split at h
  · simp at h
  · exact h

theorem opExtendStartChecked_le {mid : Option α} {j k : α} {st st' : SState α}
    (h : opExtendStartChecked mid j k st = some st') :
    opExtendStart mid j k st = some st' := by
  unfold opExtendStartChecked at h
  cases hek : alookup k st.sToE with
  | none => rw [hek] at h; simp at h
  | some eK =>
  rw [hek] at h
  simp only [Option.bind_eq_bind, Option.some_bind] at h
  split at h
  · simp at h
  · exact h

theorem opExtendEndChecked_le {mid : Option α} {j k : α} {st st' : SState α}
    (h : opExtendEndChecked mid j k st = some st') :
    opExtendEnd mid j k st = some st' := by
  unfold opExtendEndChecked at h
  cases hsj : alookup j st.eToS with
  | none => rw [hsj] at h; simp at h
  | some sJ =>
  rw [hsj] at h
  simp only [Option.bind_eq_bind, Option.some_bind] at h
  split at h
  · simp at h
  · exact h

theorem opNewAloneChecked_le {mid : Option α} {j k : α} {st st' : SState α}
    (h : opNewAloneChecked mid j k st = some st') :
    opNewAlone mid j k st = st' := by
  unfold opNewAloneChecked at h
  split at h
  · simp at h
  · exact Option.some.inj h

theorem foldlM_mono {f g : SState α → α × α → Option (SState α)}
    (hfg : ∀ s jk s2, f s jk = some s2 → g s jk = some s2) :
    ∀ (l : List (α × α)) (st st' : SState α),
      l.foldlM f st = some st' → l.foldlM g st = some st'
  | [], st, st', h => by
      simp only [List.foldlM_nil] at h ⊢
      exact h
  | x :: t, st, st', h => by
      rw [List.foldlM_cons] at h ⊢
      cases hfx : f st x with
      | none => rw [hfx] at h; simp at h
      | some s1 =>
          rw [hfx] at h
          simp only [Option.bind_eq_bind, Option.some_bind] at h
          rw [hfg st x s1 hfx]
          simp only [Option.bind_eq_bind, Option.some_bind]
          exact foldlM_mono hfg t s1 st' h

theorem foldlM_newAlone_foldl {mid : Option α} :
    ∀ (l : List (α × α)) (st st' : SState α),
      l.foldlM (fun s x => opNewAloneChecked mid x.1 x.2 s) st = some st' →
      l.foldl (fun s x => opNewAlone mid x.1 x.2 s) st = st'
  | [], st, st', h => by
      simp only [List.foldlM_nil] at h
      cases h
      simp
  | x :: t, st, st', h => by
      rw [List.foldlM_cons] at h
      cases hfx : opNewAloneChecked mid x.1 x.2 st with
      | none => rw [hfx] at h; simp at h
      | some s1 =>
          rw [hfx] at h
          simp only [Option.bind_eq_bind, Option.some_bind] at h
          rw [List.foldl_cons, opNewAloneChecked_le hfx]
          exact foldlM_newAlone_foldl t s1 st' h

/-- A successful guarded batch performs exactly the source's batch. -/
theorem applyBatchChecked_le {st st' : SState α} {pts : List α}
    {mid : Option α} (h : applyBatchChecked st pts mid = some st') :
    applyBatch st pts mid = some st' := by
  simp only [applyBatchChecked] at h
  simp only [applyBatch]
  rw [Option.bind_eq_bind, Option.bind_eq_some] at h
  obtain ⟨st1, h1, h⟩ := h
  rw [Option.bind_eq_some] at h
  obtain ⟨st2, h2, h⟩ := h
  rw [Option.bind_eq_some] at h
  obtain ⟨st3, h3, h⟩ := h
  rw [foldlM_mono (fun s jk s2 hs => opFillGapChecked_le hs) _ _ _ h1]
  simp only [Option.bind_eq_bind, Option.some_bind]
  rw [foldlM_mono (fun s jk s2 hs => opExtendStartChecked_le hs) _ _ _ h2]
  simp only [Option.bind_eq_bind, Option.some_bind]
  rw [foldlM_mono (fun s jk s2 hs => opExtendEndChecked_le hs) _ _ _ h3]
  simp only [Option.bind_eq_bind, Option.some_bind]
  rw [foldlM_newAlone_foldl _ _ _ h]

/-- A successful guarded run performs exactly the source's run. -/
theorem applyBatchesChecked_le :
    ∀ (bs : List (List α × Option α)) (st st' : SState α),
      applyBatchesChecked st bs = some st' → applyBatches st bs = some st'
  | [], st, st', h => h
  | b :: bs, st, st', h => by
      simp only [applyBatchesChecked] at h
      rw [Option.bind_eq_bind, Option.bind_eq_some] at h
      obtain ⟨st1, h1, h⟩ := h
      simp only [applyBatches]
      rw [applyBatchChecked_le h1]
      simp only [Option.bind_eq_bind, Option.some_bind]
      exact applyBatchesChecked_le bs st1 st' h

theorem alookup_map_self {f : γ → List γ} :
    ∀ (l : List γ) (a : γ) (r : List γ),
      alookup a (l.map fun i => (i, f i)) = some r → a ∈ l ∧ r = f a
  | [], a, r, h => by simp [alookup] at h
  | x :: t, a, r, h => by
      rw [List.map_cons, alookup] at h
      by_cases hxa : x = a
      · subst hxa
        rw [if_pos rfl] at h
        cases h
        exact ⟨List.mem_cons_self x t, rfl⟩
      · rw [if_neg hxa] at h
        obtain ⟨h1, h2⟩ := alookup_map_self t a r h
        exact ⟨List.mem_cons_of_mem x h1, h2⟩

theorem hierStep_fold_mem (nested : γ → List γ) :
    ∀ (l : List γ) (acc : List γ × List γ) (b : γ),
      b ∈ (l.foldl (hierStep nested) acc).1 → b ∈ acc.1 ∨ b ∈ l
  | [], acc, b, h => Or.inl h
  | x :: t, acc, b, h => by
      rw [List.foldl_cons] at h
      rcases hierStep_fold_mem nested t (hierStep nested acc x) b h with h1 | h1
      · unfold hierStep at h1
        by_cases hx : x ∈ acc.2
        · rw [if_pos hx] at h1
          exact Or.inl h1
        · rw [if_neg hx] at h1
          rcases List.mem_append.mp h1 with h2 | h2
          · exact Or.inl h2
          · simp at h2
            exact Or.inr (by simp [h2])
      · exact Or.inr (List.mem_cons_of_mem x h1)

/-- Every recorded direct child of `i` is one of `i`'s nested areas. -/
theorem removeOf_subset_nested (starts : List γ) (ctn : γ → γ → Bool) (i b : γ)
    (hb : b ∈ removeOf starts ctn i) : b ∈ nestedOf starts ctn i := by
  unfold removeOf at hb
  rcases hierStep_fold_mem (nestedOf starts ctn) _ _ _ hb with h | h
  · simp at h
  · exact (List.mem_mergeSort).mp h

/-- A direct-child link implies membership and oracle containment. -/
theorem childRel_contains {starts : List γ} {ctn : γ → γ → Bool} {a b : γ}
    (h : childRel starts ctn a b) :
    a ∈ starts ∧ b ∈ starts ∧ ctn a b = true := by
  obtain ⟨l, hl, hb⟩ := h
  obtain ⟨ha, rfl⟩ := alookup_map_self starts a l hl
  have := removeOf_subset_nested starts ctn a b hb
  rw [nestedOf, List.mem_filter] at this
  exact ⟨ha, this.1, this.2⟩

/-- Acyclicity of `calc_area_hierarchy` (claim C5): when the containment
oracle is irreflexive and transitive on the given path starts, no region is
its own direct child and following direct-child links never returns to the
starting region. -/
theorem calcAreaHierarchy_acyclic (starts : List γ) (ctn : γ → γ → Bool)
    (hirr : ∀ a ∈ starts, ctn a a = false)
    (htr : ∀ a b c, a ∈ starts → b ∈ starts → c ∈ starts →
      ctn a b = true → ctn b c = true → ctn a c = true) :
    (∀ a l, alookup a (calcAreaHierarchy starts ctn) = some l → a ∉ l) ∧
    ∀ a, ¬ Relation.TransGen (childRel starts ctn) a a := by
  have key : ∀ a b, Relation.TransGen (childRel starts ctn) a b →
      a ∈ starts ∧ b ∈ starts ∧ ctn a b = true := by
    intro a b h
    induction h with
    | single h1 => exact childRel_contains h1
    | tail h1 h2 ih =>
        obtain ⟨ha, hb, hab⟩ := ih
        obtain ⟨hb2, hc, hbc⟩ := childRel_contains h2
        exact ⟨ha, hc, htr _ _ _ ha hb hc hab hbc⟩
  constructor
  · intro a l hl hal
    obtain ⟨ha, _, haa⟩ := childRel_contains ⟨l, hl, hal⟩
    rw [hirr a ha] at haa
    cases haa
  · intro a h
    obtain ⟨ha, _, haa⟩ := key a a h
    rw [hirr a ha] at haa
    cases haa

/-- Characterisation of direct closure (claim C7): the open path starting at
`i` is closed directly exactly when its start and end share an X coordinate
or share a Y coordinate and the closed candidate tests counter-clockwise. -/
theorem directlyClosed_iff (tcw : List Pt → Bool × ℕ)
    (paths : List (Pt × List Pt)) (i : Pt) (c : List Pt) (zv : ℕ) :
    directlyClosed tcw paths i = some (c, zv) ↔
      ∃ p e, alookup i paths = some p ∧ p.getLast? = some e ∧
        (i.1 = e.1 ∨ i.2 = e.2) ∧ (tcw (p ++ [i])).1 = true ∧
        c = p ++ [i] ∧ zv = (tcw (p ++ [i])).2 := by
  unfold directlyClosed
  cases hp : alookup i paths with
  | none => simp
  | some p =>
    simp only [Option.bind_eq_bind, Option.some_bind]
    cases he : p.getLast? with
    | none => simp [he]
    | some e =>
      simp only [Option.some_bind]
      constructor
      · intro h
        split at h
        · rename_i hcond
          split at h
          · rename_i hccw
            cases h
            exact ⟨p, e, rfl, he, hcond, hccw, rfl, rfl⟩
          · cases h
        · cases h
      · rintro ⟨p2, e2, hp2, he2, hcond, hccw, rfl, rfl⟩
        cases hp2
        rw [he] at he2
        cases he2
        rw [if_pos hcond, if_pos hccw]

/-- The fill-emission step for one region (claim C9): the region's own stored
vertex list gains the reversed vertex lists of its direct children, appended
in place; every other stored list, in particular each child's own, is left
unchanged. -/
theorem emitOne_spec (i : γ) :
    ∀ (children : List γ) (paths : List (γ × List γ)) (v0 : List γ),
      alookup i paths = some v0 →
      (∀ c ∈ children, c ≠ i ∧ (alookup c paths).isSome) →
      ∃ ps', emitOne i children paths = some ps' ∧
        alookup i ps' =
          some (v0 ++ (children.flatMap fun c => ((alookup c paths).getD []).reverse)) ∧
        ∀ x, x ≠ i → alookup x ps' = alookup x paths
  | [], paths, v0, hv0, _ => by
      refine ⟨paths, ?_, by simpa using hv0, fun x _ => rfl⟩
      simp [emitOne]
  | c :: cs, paths, v0, hv0, hch => by
      obtain ⟨hci, hcl⟩ := hch c (List.mem_cons_self c cs)
      rw [Option.isSome_iff_exists] at hcl
      obtain ⟨pc, hpc⟩ := hcl
      have step : emitOne i (c :: cs) paths =
          emitOne i cs (ainsert i (v0 ++ pc.reverse) paths) := by
        unfold emitOne
        rw [List.foldlM_cons, hv0]
        simp only [Option.bind_eq_bind, Option.some_bind]
        rw [hpc]
        simp only [Option.some_bind]
      have hlook2 : alookup i (ainsert i (v0 ++ pc.reverse) paths) =
          some (v0 ++ pc.reverse) := by
        rw [alookup_ainsert, if_pos rfl]
      have hstable : ∀ x, x ≠ i →
          alookup x (ainsert i (v0 ++ pc.reverse) paths) = alookup x paths := by
        intro x hx
        rw [alookup_ainsert, if_neg (fun hh => hx hh.symm)]
      obtain ⟨ps', hps', hlook', hframe'⟩ :=
        emitOne_spec i cs (ainsert i (v0 ++ pc.reverse) paths) (v0 ++ pc.reverse)
          hlook2
          (fun c2 hc2 => ⟨(hch c2 (List.mem_cons_of_mem c hc2)).1, by
            rw [hstable c2 (hch c2 (List.mem_cons_of_mem c hc2)).1]
            exact (hch c2 (List.mem_cons_of_mem c hc2)).2⟩)
      refine ⟨ps', by rw [step]; exact hps', ?_, ?_⟩
      · rw [hlook']
        congr 1
        rw [List.flatMap_cons, hpc, ← List.append_assoc]
        congr 1
        apply List.flatMap_congr
        intro c2 hc2
        rw [hstable c2 (hch c2 (List.mem_cons_of_mem c hc2)).1]
      · intro x hx
        rw [hframe' x hx, hstable x hx]

/-- A uniform grid has no boundary points in any square. -/
theorem uniform_cellPoints (g : Grid) (hz : ∀ r c, g.z r c = g.z 0 0)
    (i j : ℕ) : cellPoints g i j = [] := by
  unfold cellPoints
  simp [rowsNotEqual, colsNotEqual, hz]

/-- A uniform grid produces no boundary batches at all. -/
theorem uniform_boundaryBatches (g : Grid) (hz : ∀ r c, g.z r c = g.z 0 0) :
    boundaryBatches g = [] := by
  unfold boundaryBatches
  rw [List.filter_eq_nil_iff]
  intro b hb
  simp only [List.mem_flatMap, List.mem_map, List.mem_range] at hb
  obtain ⟨i, hi, j, hj, rfl⟩ := hb
  simp [uniform_cellPoints g hz i j]

/-- On a state with no registrations every segment is stand-alone, so a batch
on the empty state just files each chain segment as a brand-new path. -/
theorem applyBatch_empty (pts : List α) (mid : Option α) :
    applyBatch (SState.empty α) pts mid =
      some ((chainOf pts).foldl (fun s t => opNewAlone mid t.1 t.2 s)
        (SState.empty α)) := by
  unfold applyBatch
  have h0 : ∀ t : α × α, segClass (SState.empty α) t = 0 := by
    intro t
    simp [segClass, SState.empty, alookup]
  simp [h0]

/-- On a uniform grid the whole solid-fill extraction succeeds with no
boundary paths and no filled patches. -/
theorem uniform_extractFill (g : Grid) (tcw : List Pt → Bool × ℕ)
    (ctnP : List Pt → List Pt → Bool) (fuel : ℕ)
    (hz : ∀ r c, g.z r c = g.z 0 0) :
    stitchGrid g = some (SState.empty Pt) ∧
    extractFill g tcw ctnP fuel = some [] := by
  have hb : boundaryBatches g = [] := uniform_boundaryBatches g hz
  have hst : stitchGrid g = some (SState.empty Pt) := by
    rw [stitchGrid, hb]
    rfl
  refine ⟨hst, ?_⟩
  rw [extractFill, hst]
  simp [SState.empty, directClose, walkAll, fillPatches]

/-- A cell with exactly two unequal sides (claim C2, amended): the extractor
emits exactly the two direct segments `(p, q)` and `(q, p)` joining the two
side midpoints, in both directions, with no middle vertex. -/
theorem two_point_cell {g : Grid} {i j : ℕ} {p q : Pt}
    (hp : cellPoints g i j = [p, q]) :
    chainOf (cellPoints g i j) = [(p, q), (q, p)] ∧
    middleNeeded (cellPoints g i j) = false ∧ cellMid g i j = none := by
  refine ⟨by rw [hp]; rfl, by rw [hp]; rfl, ?_⟩
  rw [cellMid, hp]
  rfl

theorem cell_two_unequal (g : Grid) (i j : ℕ)
    (h2 : (colsNotEqual g i j).toNat + (rowsNotEqual g (i + 1) j).toNat +
      (colsNotEqual g i (j + 1)).toNat + (rowsNotEqual g i j).toNat = 2) :
    ∃ p q, cellPoints g i j = [p, q] ∧
      chainOf (cellPoints g i j) = [(p, q), (q, p)] ∧
      middleNeeded (cellPoints g i j) = false ∧ cellMid g i j = none := by
  cases hf1 : colsNotEqual g i j <;> cases hf2 : rowsNotEqual g (i + 1) j <;>
    cases hf3 : colsNotEqual g i (j + 1) <;> cases hf4 : rowsNotEqual g i j <;>
    simp only [hf1, hf2, hf3, hf4, Bool.toNat_true, Bool.toNat_false] at h2 <;>
    try omega
  · have hp : cellPoints g i j =
        [((g.xs (j + 1) : ℚ), g.ys i + halfDeltaY g),
         (g.xs j + halfDeltaX g, g.ys i)] := by
      simp [cellPoints, hf1, hf2, hf3, hf4]
    exact ⟨_, _, hp, two_point_cell hp⟩
  · have hp : cellPoints g i j =
        [(g.xs j + halfDeltaX g, g.ys (i + 1)),
         (g.xs j + halfDeltaX g, g.ys i)] := by
      simp [cellPoints, hf1, hf2, hf3, hf4]
    exact ⟨_, _, hp, two_point_cell hp⟩
  · have hp : cellPoints g i j =
        [(g.xs j + halfDeltaX g, g.ys (i + 1)),
         ((g.xs (j + 1) : ℚ), g.ys i + halfDeltaY g)] := by
      simp [cellPoints, hf1, hf2, hf3, hf4]
    exact ⟨_, _, hp, two_point_cell hp⟩
  · have hp : cellPoints g i j =
        [((g.xs j : ℚ), g.ys i + halfDeltaY g),
         (g.xs j + halfDeltaX g, g.ys i)] := by
      simp [cellPoints, hf1, hf2, hf3, hf4]
    exact ⟨_, _, hp, two_point_cell hp⟩
  · have hp : cellPoints g i j =
        [((g.xs j : ℚ), g.ys i + halfDeltaY g),
         ((g.xs (j + 1) : ℚ), g.ys i + halfDeltaY g)] := by
      simp [cellPoints, hf1, hf2, hf3, hf4]
    exact ⟨_, _, hp, two_point_cell hp⟩
  · have hp : cellPoints g i j =
        [((g.xs j : ℚ), g.ys i + halfDeltaY g),
         (g.xs j + halfDeltaX g, g.ys (i + 1))] := by
      simp [cellPoints, hf1, hf2, hf3, hf4]
    exact ⟨_, _, hp, two_point_cell hp⟩

/-- A saddle cell (claim C8): all four sides unequal.  The cell emits the
four segments of its cyclic chain, all routed through the cell's centroid,
with no duplicate and no zero-length segment, and applying the batch
succeeds, storing one three-vertex path through the centre per segment. -/
theorem cell_saddle (g : Grid) (i j : ℕ)
    (hf1 : colsNotEqual g i j = true) (hf2 : rowsNotEqual g (i + 1) j = true)
    (hf3 : colsNotEqual g i (j + 1) = true) (hf4 : rowsNotEqual g i j = true)
    (hsx : g.xs (j + 1) = g.xs j + 2 * halfDeltaX g)
    (hsy : g.ys (i + 1) = g.ys i + 2 * halfDeltaY g)
    (hpx : 0 < halfDeltaX g) (hpy : 0 < halfDeltaY g) :
    cellPoints g i j =
      [((g.xs j : ℚ), g.ys i + halfDeltaY g),
       (g.xs j + halfDeltaX g, g.ys (i + 1)),
       ((g.xs (j + 1) : ℚ), g.ys i + halfDeltaY g),
       (g.xs j + halfDeltaX g, g.ys i)] ∧
    cellMid g i j = some (g.xs j + halfDeltaX g, g.ys i + halfDeltaY g) ∧
    (chainOf (cellPoints g i j)).Nodup ∧
    (∀ t ∈ chainOf (cellPoints g i j), t.1 ≠ t.2) ∧
    ∃ st, applyBatch (SState.empty Pt) (cellPoints g i j) (cellMid g i j) =
        some st ∧
      ∀ t ∈ chainOf (cellPoints g i j),
        alookup t.1 st.paths =
          some [t.1, (g.xs j + halfDeltaX g, g.ys i + halfDeltaY g), t.2] := by
  have hpts : cellPoints g i j =
      [((g.xs j : ℚ), g.ys i + halfDeltaY g),
       (g.xs j + halfDeltaX g, g.ys (i + 1)),
       ((g.xs (j + 1) : ℚ), g.ys i + halfDeltaY g),
       (g.xs j + halfDeltaX g, g.ys i)] := by
    simp [cellPoints, hf1, hf2, hf3, hf4]
  have h12 : ((g.xs j : ℚ), g.ys i + halfDeltaY g) ≠
      (g.xs j + halfDeltaX g, g.ys (i + 1)) := by
    intro h
    rw [Prod.mk.injEq] at h
    linarith [h.1]
  have h13 : ((g.xs j : ℚ), g.ys i + halfDeltaY g) ≠
      ((g.xs (j + 1) : ℚ), g.ys i + halfDeltaY g) := by
    intro h
    rw [Prod.mk.injEq] at h
    have hx := h.1
    rw [hsx] at hx
    linarith
  have h14 : ((g.xs j : ℚ), g.ys i + halfDeltaY g) ≠
      (g.xs j + halfDeltaX g, g.ys i) := by
    intro h
    rw [Prod.mk.injEq] at h
    linarith [h.1]
  have h23 : (g.xs j + halfDeltaX g, g.ys (i + 1)) ≠
      ((g.xs (j + 1) : ℚ), g.ys i + halfDeltaY g) := by
    intro h
    rw [Prod.mk.injEq] at h
    have hx := h.1
    rw [hsx] at hx
    linarith
  have h24 : (g.xs j + halfDeltaX g, g.ys (i + 1)) ≠
      (g.xs j + halfDeltaX g, g.ys i) := by
    intro h
    rw [Prod.mk.injEq] at h
    have hy := h.2
    rw [hsy] at hy
    linarith
  have h34 : ((g.xs (j + 1) : ℚ), g.ys i + halfDeltaY g) ≠
      (g.xs j + halfDeltaX g, g.ys i) := by
    intro h
    rw [Prod.mk.injEq] at h
    have hx := h.1
    rw [hsx] at hx
    linarith
  have hchain : chainOf (cellPoints g i j) =
      [(((g.xs j : ℚ), g.ys i + halfDeltaY g),
        (g.xs j + halfDeltaX g, g.ys (i + 1))),
       ((g.xs j + halfDeltaX g, g.ys (i + 1)),
        ((g.xs (j + 1) : ℚ), g.ys i + halfDeltaY g)),
       (((g.xs (j + 1) : ℚ), g.ys i + halfDeltaY g),
        (g.xs j + halfDeltaX g, g.ys i)),
       ((g.xs j + halfDeltaX g, g.ys i),
        ((g.xs j : ℚ), g.ys i + halfDeltaY g))] := by
    rw [hpts]
    rfl
  have hmid : cellMid g i j =
      some (g.xs j + halfDeltaX g, g.ys i + halfDeltaY g) := by
    rw [cellMid, hpts]
    show some (middleOf _) = _
    unfold middleOf
    simp only [List.map_cons, List.map_nil, List.sum_cons, List.sum_nil,
      List.length_cons, List.length_nil]
    rw [Option.some.injEq, Prod.mk.injEq]
    constructor
    · rw [hsx]
      push_cast
      ring
    · rw [hsy]
      push_cast
      ring
  refine ⟨hpts, hmid, ?_, ?_, ?_⟩
  · have hmapped : ((chainOf (cellPoints g i j)).map Prod.fst).Nodup := by
      rw [hchain]
      simp only [List.map_cons, List.map_nil, List.nodup_cons, List.mem_cons,
        List.not_mem_nil, or_false, List.nodup_nil, and_true]
      refine ⟨?_, ?_, ?_⟩
      · rintro (h | h | h)
        exacts [h12 h, h13 h, h14 h]
      · rintro (h | h)
        exacts [h23 h, h24 h]
      · exact ⟨h34, not_false⟩
    exact hmapped.of_map
  · rw [hchain]
    intro t ht
    simp only [List.mem_cons, List.not_mem_nil, or_false] at ht
    rcases ht with rfl | rfl | rfl | rfl
    · exact h12
    · exact h23
    · exact h34
    · exact fun h => h14 h.symm
  · rw [hmid, hchain]
    have happ := applyBatch_empty (cellPoints g i j)
      (some (g.xs j + halfDeltaX g, g.ys i + halfDeltaY g))
    rw [hchain] at happ
    refine ⟨_, happ, ?_⟩
    intro t ht
    simp only [List.mem_cons, List.not_mem_nil, or_false] at ht
    have n21 : ¬ ((g.xs j + halfDeltaX g, g.ys (i + 1)) =
        ((g.xs j : ℚ), g.ys i + halfDeltaY g)) := fun h => h12 h.symm
    have n31 : ¬ (((g.xs (j + 1) : ℚ), g.ys i + halfDeltaY g) =
        ((g.xs j : ℚ), g.ys i + halfDeltaY g)) := fun h => h13 h.symm
    have n41 : ¬ ((g.xs j + halfDeltaX g, g.ys i) =
        ((g.xs j : ℚ), g.ys i + halfDeltaY g)) := fun h => h14 h.symm
    have n32 : ¬ (((g.xs (j + 1) : ℚ), g.ys i + halfDeltaY g) =
        (g.xs j + halfDeltaX g, g.ys (i + 1))) := fun h => h23 h.symm
    have n42 : ¬ ((g.xs j + halfDeltaX g, g.ys i) =
        (g.xs j + halfDeltaX g, g.ys (i + 1))) := fun h => h24 h.symm
    have n43 : ¬ ((g.xs j + halfDeltaX g, g.ys i) =
        ((g.xs (j + 1) : ℚ), g.ys i + halfDeltaY g)) := fun h => h34 h.symm
    rcases ht with rfl | rfl | rfl | rfl <;>
      simp only [List.foldl_cons, List.foldl_nil, opNewAlone, Option.toList] <;>
      rw [alookup_ainsert]
    · rw [if_neg n41, alookup_ainsert, if_neg n31, alookup_ainsert,
        if_neg n21, alookup_ainsert, if_pos rfl]
      rfl
    · rw [if_neg n42, alookup_ainsert, if_neg n32, alookup_ainsert,
        if_pos rfl]
      rfl
    · rw [if_neg n43, alookup_ainsert, if_pos rfl]
      rfl
    · rw [if_pos rfl]
      rfl

/-- Parametric description of the four midpoint families. -/
theorem isMid_cases {a b : ℤ} {p : ℤ × ℤ} (hp : IsMid a b p) :
    (∃ c, p = (2 * c + 1, 0) ∧ 0 ≤ c ∧ c ≤ a - 1) ∨
    (∃ r, p = (2 * a, 2 * r + 1) ∧ 0 ≤ r ∧ r ≤ b - 1) ∨
    (∃ c, p = (2 * c + 1, 2 * b) ∧ 0 ≤ c ∧ c ≤ a - 1) ∨
    (∃ r, p = (0, 2 * r + 1) ∧ 0 ≤ r ∧ r ≤ b - 1) := by
  obtain ⟨x, y⟩ := p
  rcases hp with ⟨h1, h2, h3, h4⟩ | ⟨h1, h2, h3, h4⟩ | ⟨h1, h2, h3, h4⟩ |
    ⟨h1, h2, h3, h4⟩
  · exact Or.inl ⟨(x - 1) / 2, by rw [Prod.mk.injEq]; constructor <;> omega,
      by omega, by omega⟩
  · exact Or.inr (Or.inl ⟨(y - 1) / 2,
      by rw [Prod.mk.injEq]; constructor <;> omega, by omega, by omega⟩)
  · exact Or.inr (Or.inr (Or.inl ⟨(x - 1) / 2,
      by rw [Prod.mk.injEq]; constructor <;> omega, by omega, by omega⟩))
  · exact Or.inr (Or.inr (Or.inr ⟨(y - 1) / 2,
      by rw [Prod.mk.injEq]; constructor <;> omega, by omega, by omega⟩))

theorem isMid_bottom {a b c : ℤ} (h0 : 0 ≤ c) (h1 : c ≤ a - 1) :
    IsMid a b (2 * c + 1, 0) := Or.inl (by constructor <;> omega)

theorem isMid_right {a b r : ℤ} (h0 : 0 ≤ r) (h1 : r ≤ b - 1) :
    IsMid a b (2 * a, 2 * r + 1) := Or.inr (Or.inl (by constructor <;> omega))

theorem isMid_top {a b c : ℤ} (h0 : 0 ≤ c) (h1 : c ≤ a - 1) :
    IsMid a b (2 * c + 1, 2 * b) := Or.inr (Or.inr (Or.inl (by constructor <;> omega)))

theorem isMid_left {a b r : ℤ} (h0 : 0 ≤ r) (h1 : r ≤ b - 1) :
    IsMid a b (0, 2 * r + 1) := Or.inr (Or.inr (Or.inr (by constructor <;> omega)))

theorem pIdx_bottom (a b c : ℤ) : pIdx a b (2 * c + 1, 0) = c := by
  rw [pIdx, if_pos rfl]
  omega

theorem pIdx_right (a b r : ℤ) : pIdx a b (2 * a, 2 * r + 1) = a + r := by
  rw [pIdx, if_neg (by simp only []; omega), if_pos rfl]
  omega

theorem pIdx_top {b : ℤ} (hb : 1 ≤ b) (a c : ℤ) :
    pIdx a b (2 * c + 1, 2 * b) = a + b + (a - 1 - c) := by
  rw [pIdx, if_neg (by simp only []; omega), if_neg (by simp only []; omega),
    if_pos rfl]
  omega

theorem pIdx_left {a : ℤ} (ha : 1 ≤ a) (b r : ℤ) :
    pIdx a b (0, 2 * r + 1) = 2 * a + b + (b - 1 - r) := by
  rw [pIdx, if_neg (by simp only []; omega), if_neg (by simp only []; omega),
    if_neg (by simp only []; omega)]
  omega

/-- Midpoint indices lie in `[0, 2a + 2b)`. -/
theorem pIdx_range {a b : ℤ} (ha : 1 ≤ a) (hb : 1 ≤ b) {p : ℤ × ℤ}
    (hp : IsMid a b p) : 0 ≤ pIdx a b p ∧ pIdx a b p < 2 * a + 2 * b := by
  rcases isMid_cases hp with ⟨c, rfl, h0, h1⟩ | ⟨r, rfl, h0, h1⟩ |
    ⟨c, rfl, h0, h1⟩ | ⟨r, rfl, h0, h1⟩
  · rw [pIdx_bottom]
    omega
  · rw [pIdx_right]
    omega
  · rw [pIdx_top hb]
    omega
  · rw [pIdx_left ha]
    omega

/-- The perimeter index is injective on midpoints. -/
theorem pIdx_inj {a b : ℤ} (ha : 1 ≤ a) (hb : 1 ≤ b) {p q : ℤ × ℤ}
    (hp : IsMid a b p) (hq : IsMid a b q) (h : pIdx a b p = pIdx a b q) :
    p = q := by
  rcases isMid_cases hp with ⟨c, rfl, h0, h1⟩ | ⟨r, rfl, h0, h1⟩ |
      ⟨c, rfl, h0, h1⟩ | ⟨r, rfl, h0, h1⟩ <;>
    rcases isMid_cases hq with ⟨c2, rfl, h2, h3⟩ | ⟨r2, rfl, h2, h3⟩ |
      ⟨c2, rfl, h2, h3⟩ | ⟨r2, rfl, h2, h3⟩ <;>
    simp only [pIdx_bottom, pIdx_right, pIdx_top hb, pIdx_left ha,
      Prod.mk.injEq] at h ⊢
  all_goals try refine ⟨?_, ?_⟩
  all_goals first
    | omega
    | trivial

/-- A midpoint never triggers any of the four corner tests. -/
theorem mid_no_corner {a b : ℤ} (ha : 1 ≤ a) (hb : 1 ≤ b) {p : ℤ × ℤ}
    (hp : IsMid a b p) :
    p.1 ≠ 2 * a + 1 ∧ p.1 ≠ -1 ∧ p.2 ≠ 2 * b + 1 ∧ p.2 ≠ -1 := by
  rcases isMid_cases hp with ⟨c, rfl, h0, h1⟩ | ⟨r, rfl, h0, h1⟩ |
    ⟨c, rfl, h0, h1⟩ | ⟨r, rfl, h0, h1⟩ <;>
    refine ⟨?_, ?_, ?_, ?_⟩ <;> simp only [] <;> omega

/-- At a frame midpoint the corner correction does nothing. -/
theorem cornerFix_mid {a b : ℤ} (ha : 1 ≤ a) (hb : 1 ≤ b) (st : WState ℤ)
    (hst : IsMid a b st.pos) : cornerFix (latticeFrame a b) st = st := by
  obtain ⟨h1, h2, h3, h4⟩ := mid_no_corner ha hb hst
  simp only [cornerFix, latticeFrame]
  rw [if_neg (by omega), if_neg (by omega), if_neg (by omega),
    if_neg (by omega)]

/-- Evaluation of `walkBody` when no open path starts at the step target. -/
theorem walkBody_nojump {a b : ℤ} (paths : List ((ℤ × ℤ) × List (ℤ × ℤ)))
    (x y mx my : ℤ) (opens acc : List (ℤ × ℤ))
    (hmem : ((x + mx, y + my) : ℤ × ℤ) ∉ opens) :
    walkBody (latticeFrame a b) paths ⟨(x, y), mx, my, opens, acc⟩ =
      cornerFix (latticeFrame a b) ⟨(x + mx, y + my), mx, my, opens, acc⟩ := by
  simp only [walkBody, jumpStep]
  rw [if_neg hmem]

/-- `walkBody` when an open path does start at the step target: the walk
absorbs that path, jumps to its far end (a midpoint) and removes one open
starting point. -/
theorem walkBody_jump {a b : ℤ} (ha : 1 ≤ a) (hb : 1 ≤ b)
    (paths : List ((ℤ × ℤ) × List (ℤ × ℤ)))
    (hP : ∀ o, IsMid a b o →
      IsMid a b (((alookup o paths).getD []).getLast?.getD o))
    (pos : ℤ × ℤ) (mvx mvy : ℤ) (opens acc : List (ℤ × ℤ))
    (hop : ∀ o ∈ opens, IsMid a b o)
    (hmem : ((pos.1 + mvx, pos.2 + mvy) : ℤ × ℤ) ∈ opens) :
    WalkInv a b (walkBody (latticeFrame a b) paths ⟨pos, mvx, mvy, opens, acc⟩) ∧
      (walkBody (latticeFrame a b) paths
          ⟨pos, mvx, mvy, opens, acc⟩).opens.length + 1 = opens.length := by
  have hm1 : IsMid a b (pos.1 + mvx, pos.2 + mvy) := hop _ hmem
  have hnp : IsMid a b
      (((alookup ((pos.1 + mvx, pos.2 + mvy) : ℤ × ℤ) paths).getD
        []).getLast?.getD (pos.1 + mvx, pos.2 + mvy)) := hP _ hm1
  have hw : walkBody (latticeFrame a b) paths ⟨pos, mvx, mvy, opens, acc⟩ =
      ⟨((alookup ((pos.1 + mvx, pos.2 + mvy) : ℤ × ℤ) paths).getD
          []).getLast?.getD (pos.1 + mvx, pos.2 + mvy),
        movX (latticeFrame a b)
          (((alookup ((pos.1 + mvx, pos.2 + mvy) : ℤ × ℤ) paths).getD
            []).getLast?.getD (pos.1 + mvx, pos.2 + mvy)),
        movY (latticeFrame a b)
          (((alookup ((pos.1 + mvx, pos.2 + mvy) : ℤ × ℤ) paths).getD
            []).getLast?.getD (pos.1 + mvx, pos.2 + mvy)),
        opens.erase (pos.1 + mvx, pos.2 + mvy),
        acc ++ (alookup ((pos.1 + mvx, pos.2 + mvy) : ℤ × ℤ) paths).getD []⟩ := by
    have hj : jumpStep (latticeFrame a b) paths ⟨pos, mvx, mvy, opens, acc⟩ =
        ⟨((alookup ((pos.1 + mvx, pos.2 + mvy) : ℤ × ℤ) paths).getD
            []).getLast?.getD (pos.1 + mvx, pos.2 + mvy),
          movX (latticeFrame a b)
            (((alookup ((pos.1 + mvx, pos.2 + mvy) : ℤ × ℤ) paths).getD
              []).getLast?.getD (pos.1 + mvx, pos.2 + mvy)),
          movY (latticeFrame a b)
            (((alookup ((pos.1 + mvx, pos.2 + mvy) : ℤ × ℤ) paths).getD
              []).getLast?.getD (pos.1 + mvx, pos.2 + mvy)),
          opens.erase (pos.1 + mvx, pos.2 + mvy),
          acc ++ (alookup ((pos.1 + mvx, pos.2 + mvy) : ℤ × ℤ) paths).getD []⟩ := by
      simp only [jumpStep]
      rw [if_pos hmem]
    show cornerFix (latticeFrame a b)
        (jumpStep (latticeFrame a b) paths ⟨pos, mvx, mvy, opens, acc⟩) = _
    rw [hj]
    exact cornerFix_mid ha hb _ hnp
  rw [hw]
  refine ⟨⟨hnp, rfl, rfl, fun o ho => hop o (List.mem_of_mem_erase ho)⟩, ?_⟩
  have h1 : (opens.erase ((pos.1 + mvx, pos.2 + mvy) : ℤ × ℤ)).length =
      opens.length - 1 := List.length_erase_of_mem hmem
  have h2 := List.length_pos_of_mem hmem
  show (opens.erase ((pos.1 + mvx, pos.2 + mvy) : ℤ × ℤ)).length + 1 = _
  omega

/-- One simulation step: `walkBody` preserves the walk invariant and either
absorbs one open path or advances the perimeter index by one
counter-clockwise position (wrapping at `2a + 2b`). -/
theorem walkBody_sim {a b : ℤ} (ha : 1 ≤ a) (hb : 1 ≤ b)
    (paths : List ((ℤ × ℤ) × List (ℤ × ℤ)))
    (hP : ∀ o, IsMid a b o →
      IsMid a b (((alookup o paths).getD []).getLast?.getD o))
    (st : WState ℤ) (hinv : WalkInv a b st) :
    WalkInv a b (walkBody (latticeFrame a b) paths st) ∧
      ((walkBody (latticeFrame a b) paths st).opens.length + 1 =
          st.opens.length ∨
        ((walkBody (latticeFrame a b) paths st).opens = st.opens ∧
          (pIdx a b (walkBody (latticeFrame a b) paths st).pos =
              pIdx a b st.pos + 1 ∨
            (pIdx a b st.pos = 2 * a + 2 * b - 1 ∧
              pIdx a b (walkBody (latticeFrame a b) paths st).pos = 0)))) := by
  obtain ⟨pos, mvx, mvy, opens, acc⟩ := st
  obtain ⟨hpos, hmx, hmy, hop⟩ := hinv
  dsimp only at hpos hmx hmy hop ⊢
  by_cases hmem : ((pos.1 + mvx, pos.2 + mvy) : ℤ × ℤ) ∈ opens
  · exact ⟨(walkBody_jump ha hb paths hP pos mvx mvy opens acc hop hmem).1,
      Or.inl (walkBody_jump ha hb paths hP pos mvx mvy opens acc hop hmem).2⟩
  rcases isMid_cases hpos with ⟨c, rfl, h0, h1⟩ | ⟨r, rfl, h0, h1⟩ |
      ⟨c, rfl, h0, h1⟩ | ⟨r, rfl, h0, h1⟩
  · -- bottom edge, moving right
    have hmx2 : mvx = 2 := by
      rw [hmx]
      simp only [movX, latticeFrame]
      rw [if_neg (by omega), if_true]
    have hmy2 : mvy = 0 := by
      rw [hmy]
      simp only [movY, latticeFrame]
      rw [if_pos (Or.inr trivial)]
    subst hmx2
    subst hmy2
    rw [walkBody_nojump paths (2 * c + 1) 0 2 0 opens acc hmem]
    by_cases hc : c = a - 1
    · subst hc
      have hstep : ((2 * (a - 1) + 1 + 2 : ℤ), ((0 : ℤ) + 0)) =
          ((2 * a + 1 : ℤ), (0 : ℤ)) := by
        rw [Prod.mk.injEq]
        omega
      rw [hstep]
      have hcf : cornerFix (latticeFrame a b)
          ⟨((2 * a + 1 : ℤ), (0 : ℤ)), 2, 0, opens, acc⟩ =
          ⟨((2 * a : ℤ), (0 + 1 : ℤ)), 0, 2, opens,
            acc ++ [((2 * a : ℤ), (0 : ℤ)), ((2 * a : ℤ), (0 + 1 : ℤ))]⟩ := by
        simp only [cornerFix, latticeFrame]
        rw [if_true]
      rw [hcf]
      have hpt : (((2 * a : ℤ), (0 + 1 : ℤ)) : ℤ × ℤ) =
          ((2 * a : ℤ), (2 * 0 + 1 : ℤ)) := by
        rw [Prod.mk.injEq]
        omega
      rw [hpt]
      refine ⟨⟨isMid_right le_rfl (by omega), ?_, ?_, hop⟩,
        Or.inr ⟨rfl, Or.inl ?_⟩⟩
      · show (0 : ℤ) = movX (latticeFrame a b) ((2 * a : ℤ), (2 * 0 + 1 : ℤ))
        simp only [movX, latticeFrame]
        rw [if_pos (Or.inl trivial)]
      · show (2 : ℤ) = movY (latticeFrame a b) ((2 * a : ℤ), (2 * 0 + 1 : ℤ))
        simp only [movY, latticeFrame]
        rw [if_neg (by omega), if_true]
      · show pIdx a b ((2 * a : ℤ), (2 * 0 + 1 : ℤ)) =
          pIdx a b ((2 * (a - 1) + 1 : ℤ), (0 : ℤ)) + 1
        rw [pIdx_right, pIdx_bottom]
        omega
    · have hstep : ((2 * c + 1 + 2 : ℤ), ((0 : ℤ) + 0)) =
          ((2 * (c + 1) + 1 : ℤ), (0 : ℤ)) := by
        rw [Prod.mk.injEq]
        omega
      rw [hstep]
      rw [cornerFix_mid ha hb ⟨((2 * (c + 1) + 1 : ℤ), (0 : ℤ)), 2, 0, opens, acc⟩
        (isMid_bottom (by omega) (by omega))]
      refine ⟨⟨isMid_bottom (by omega) (by omega), ?_, ?_, hop⟩,
        Or.inr ⟨rfl, Or.inl ?_⟩⟩
      · show (2 : ℤ) = movX (latticeFrame a b) ((2 * (c + 1) + 1 : ℤ), (0 : ℤ))
        simp only [movX, latticeFrame]
        rw [if_neg (by omega), if_true]
      · show (0 : ℤ) = movY (latticeFrame a b) ((2 * (c + 1) + 1 : ℤ), (0 : ℤ))
        simp only [movY, latticeFrame]
        rw [if_pos (Or.inr trivial)]
      · show pIdx a b ((2 * (c + 1) + 1 : ℤ), (0 : ℤ)) =
          pIdx a b ((2 * c + 1 : ℤ), (0 : ℤ)) + 1
        rw [pIdx_bottom, pIdx_bottom]
  · -- right edge, moving up
    have hmx2 : mvx = 0 := by
      rw [hmx]
      simp only [movX, latticeFrame]
      rw [if_pos (Or.inl trivial)]
    have hmy2 : mvy = 2 := by
      rw [hmy]
      simp only [movY, latticeFrame]
      rw [if_neg (by omega), if_true]
    subst hmx2
    subst hmy2
    rw [walkBody_nojump paths (2 * a) (2 * r + 1) 0 2 opens acc hmem]
    by_cases hr : r = b - 1
    · subst hr
      have hstep : ((2 * a + 0 : ℤ), (2 * (b - 1) + 1 + 2 : ℤ)) =
          ((2 * a : ℤ), (2 * b + 1 : ℤ)) := by
        rw [Prod.mk.injEq]
        omega
      rw [hstep]
      have hcf : cornerFix (latticeFrame a b)
          ⟨((2 * a : ℤ), (2 * b + 1 : ℤ)), 0, 2, opens, acc⟩ =
          ⟨((2 * a - 1 : ℤ), (2 * b : ℤ)), -2, 0, opens,
            acc ++ [((2 * a : ℤ), (2 * b : ℤ)), ((2 * a - 1 : ℤ), (2 * b : ℤ))]⟩ := by
        simp only [cornerFix, latticeFrame]
        rw [if_neg (by omega), if_neg (by omega), if_true]
      rw [hcf]
      have hpt : (((2 * a - 1 : ℤ), (2 * b : ℤ)) : ℤ × ℤ) =
          ((2 * (a - 1) + 1 : ℤ), (2 * b : ℤ)) := by
        rw [Prod.mk.injEq]
        omega
      rw [hpt]
      refine ⟨⟨isMid_top (by omega) (by omega), ?_, ?_, hop⟩,
        Or.inr ⟨rfl, Or.inl ?_⟩⟩
      · show (-2 : ℤ) = movX (latticeFrame a b) ((2 * (a - 1) + 1 : ℤ), (2 * b : ℤ))
        simp only [movX, latticeFrame]
        rw [if_neg (by omega), if_neg (by omega)]
      · show (0 : ℤ) = movY (latticeFrame a b) ((2 * (a - 1) + 1 : ℤ), (2 * b : ℤ))
        simp only [movY, latticeFrame]
        rw [if_pos (Or.inl trivial)]
      · show pIdx a b ((2 * (a - 1) + 1 : ℤ), (2 * b : ℤ)) =
          pIdx a b ((2 * a : ℤ), (2 * (b - 1) + 1 : ℤ)) + 1
        rw [pIdx_top hb, pIdx_right]
        omega
    · have hstep : ((2 * a + 0 : ℤ), (2 * r + 1 + 2 : ℤ)) =
          ((2 * a : ℤ), (2 * (r + 1) + 1 : ℤ)) := by
        rw [Prod.mk.injEq]
        omega
      rw [hstep]
      rw [cornerFix_mid ha hb ⟨((2 * a : ℤ), (2 * (r + 1) + 1 : ℤ)), 0, 2, opens, acc⟩
        (isMid_right (by omega) (by omega))]
      refine ⟨⟨isMid_right (by omega) (by omega), ?_, ?_, hop⟩,
        Or.inr ⟨rfl, Or.inl ?_⟩⟩
      · show (0 : ℤ) = movX (latticeFrame a b) ((2 * a : ℤ), (2 * (r + 1) + 1 : ℤ))
        simp only [movX, latticeFrame]
        rw [if_pos (Or.inl trivial)]
      · show (2 : ℤ) = movY (latticeFrame a b) ((2 * a : ℤ), (2 * (r + 1) + 1 : ℤ))
        simp only [movY, latticeFrame]
        rw [if_neg (by omega), if_true]
      · show pIdx a b ((2 * a : ℤ), (2 * (r + 1) + 1 : ℤ)) =
          pIdx a b ((2 * a : ℤ), (2 * r + 1 : ℤ)) + 1
        rw [pIdx_right, pIdx_right]
        omega
  · -- top edge, moving left
    have hmx2 : mvx = -2 := by
      rw [hmx]
      simp only [movX, latticeFrame]
      rw [if_neg (by omega), if_neg (by omega)]
    have hmy2 : mvy = 0 := by
      rw [hmy]
      simp only [movY, latticeFrame]
      rw [if_pos (Or.inl trivial)]
    subst hmx2
    subst hmy2
    rw [walkBody_nojump paths (2 * c + 1) (2 * b) (-2) 0 opens acc hmem]
    by_cases hc : c = 0
    · subst hc
      have hstep : ((2 * 0 + 1 + -2 : ℤ), (2 * b + 0 : ℤ)) =
          ((0 - 1 : ℤ), (2 * b : ℤ)) := by
        rw [Prod.mk.injEq]
        omega
      rw [hstep]
      have hcf : cornerFix (latticeFrame a b)
          ⟨((0 - 1 : ℤ), (2 * b : ℤ)), -2, 0, opens, acc⟩ =
          ⟨((0 : ℤ), (2 * b - 1 : ℤ)), 0, -2, opens,
            acc ++ [((0 : ℤ), (2 * b : ℤ)), ((0 : ℤ), (2 * b - 1 : ℤ))]⟩ := by
        simp only [cornerFix, latticeFrame]
        rw [if_neg (by omega), if_true]
      rw [hcf]
      have hpt : (((0 : ℤ), (2 * b - 1 : ℤ)) : ℤ × ℤ) =
          ((0 : ℤ), (2 * (b - 1) + 1 : ℤ)) := by
        rw [Prod.mk.injEq]
        omega
      rw [hpt]
      refine ⟨⟨isMid_left (by omega) (by omega), ?_, ?_, hop⟩,
        Or.inr ⟨rfl, Or.inl ?_⟩⟩
      · show (0 : ℤ) = movX (latticeFrame a b) ((0 : ℤ), (2 * (b - 1) + 1 : ℤ))
        simp only [movX, latticeFrame]
        rw [if_pos (Or.inr trivial)]
      · show (-2 : ℤ) = movY (latticeFrame a b) ((0 : ℤ), (2 * (b - 1) + 1 : ℤ))
        simp only [movY, latticeFrame]
        rw [if_neg (by omega), if_neg (by omega)]
      · show pIdx a b ((0 : ℤ), (2 * (b - 1) + 1 : ℤ)) =
          pIdx a b ((2 * 0 + 1 : ℤ), (2 * b : ℤ)) + 1
        rw [pIdx_left ha, pIdx_top hb]
        omega
    · have hstep : ((2 * c + 1 + -2 : ℤ), (2 * b + 0 : ℤ)) =
          ((2 * (c - 1) + 1 : ℤ), (2 * b : ℤ)) := by
        rw [Prod.mk.injEq]
        omega
      rw [hstep]
      rw [cornerFix_mid ha hb ⟨((2 * (c - 1) + 1 : ℤ), (2 * b : ℤ)), -2, 0, opens, acc⟩
        (isMid_top (by omega) (by omega))]
      refine ⟨⟨isMid_top (by omega) (by omega), ?_, ?_, hop⟩,
        Or.inr ⟨rfl, Or.inl ?_⟩⟩
      · show (-2 : ℤ) = movX (latticeFrame a b) ((2 * (c - 1) + 1 : ℤ), (2 * b : ℤ))
        simp only [movX, latticeFrame]
        rw [if_neg (by omega), if_neg (by omega)]
      · show (0 : ℤ) = movY (latticeFrame a b) ((2 * (c - 1) + 1 : ℤ), (2 * b : ℤ))
        simp only [movY, latticeFrame]
        rw [if_pos (Or.inl trivial)]
      · show pIdx a b ((2 * (c - 1) + 1 : ℤ), (2 * b : ℤ)) =
          pIdx a b ((2 * c + 1 : ℤ), (2 * b : ℤ)) + 1
        rw [pIdx_top hb, pIdx_top hb]
        omega
  · -- left edge, moving down
    have hmx2 : mvx = 0 := by
      rw [hmx]
      simp only [movX, latticeFrame]
      rw [if_pos (Or.inr trivial)]
    have hmy2 : mvy = -2 := by
      rw [hmy]
      simp only [movY, latticeFrame]
      rw [if_neg (by omega), if_neg (by omega)]
    subst hmx2
    subst hmy2
    rw [walkBody_nojump paths 0 (2 * r + 1) 0 (-2) opens acc hmem]
    by_cases hr : r = 0
    · subst hr
      have hstep : ((0 + 0 : ℤ), (2 * 0 + 1 + -2 : ℤ)) =
          ((0 : ℤ), (0 - 1 : ℤ)) := by
        rw [Prod.mk.injEq]
        omega
      rw [hstep]
      have hcf : cornerFix (latticeFrame a b)
          ⟨((0 : ℤ), (0 - 1 : ℤ)), 0, -2, opens, acc⟩ =
          ⟨((0 + 1 : ℤ), (0 : ℤ)), 2, 0, opens,
            acc ++ [((0 : ℤ), (0 : ℤ)), ((0 + 1 : ℤ), (0 : ℤ))]⟩ := by
        simp only [cornerFix, latticeFrame]
        rw [if_neg (by omega), if_neg (by omega), if_neg (by omega), if_true]
      rw [hcf]
      have hpt : (((0 + 1 : ℤ), (0 : ℤ)) : ℤ × ℤ) =
          ((2 * 0 + 1 : ℤ), (0 : ℤ)) := by
        rw [Prod.mk.injEq]
        omega
      rw [hpt]
      refine ⟨⟨isMid_bottom le_rfl (by omega), ?_, ?_, hop⟩,
        Or.inr ⟨rfl, Or.inr ⟨?_, ?_⟩⟩⟩
      · show (2 : ℤ) = movX (latticeFrame a b) ((2 * 0 + 1 : ℤ), (0 : ℤ))
        simp only [movX, latticeFrame]
        rw [if_neg (by omega), if_true]
      · show (0 : ℤ) = movY (latticeFrame a b) ((2 * 0 + 1 : ℤ), (0 : ℤ))
        simp only [movY, latticeFrame]
        rw [if_pos (Or.inr trivial)]
      · show pIdx a b ((0 : ℤ), (2 * 0 + 1 : ℤ)) = 2 * a + 2 * b - 1
        rw [pIdx_left ha]
        omega
      · show pIdx a b ((2 * 0 + 1 : ℤ), (0 : ℤ)) = 0
        rw [pIdx_bottom]
    · have hstep : ((0 + 0 : ℤ), (2 * r + 1 + -2 : ℤ)) =
          ((0 : ℤ), (2 * (r - 1) + 1 : ℤ)) := by
        rw [Prod.mk.injEq]
        omega
      rw [hstep]
      rw [cornerFix_mid ha hb ⟨((0 : ℤ), (2 * (r - 1) + 1 : ℤ)), 0, -2, opens, acc⟩
        (isMid_left (by omega) (by omega))]
      refine ⟨⟨isMid_left (by omega) (by omega), ?_, ?_, hop⟩,
        Or.inr ⟨rfl, Or.inl ?_⟩⟩
      · show (0 : ℤ) = movX (latticeFrame a b) ((0 : ℤ), (2 * (r - 1) + 1 : ℤ))
        simp only [movX, latticeFrame]
        rw [if_pos (Or.inr trivial)]
      · show (-2 : ℤ) = movY (latticeFrame a b) ((0 : ℤ), (2 * (r - 1) + 1 : ℤ))
        simp only [movY, latticeFrame]
        rw [if_neg (by omega), if_neg (by omega)]
      · show pIdx a b ((0 : ℤ), (2 * (r - 1) + 1 : ℤ)) =
          pIdx a b ((0 : ℤ), (2 * r + 1 : ℤ)) + 1
        rw [pIdx_left ha, pIdx_left ha]
        omega

/-- The walk loop reaches its target within any fuel exceeding the measure,
and never adds open starting points afterwards. -/
theorem walkLoop_terminates {a b : ℤ} (ha : 1 ≤ a) (hb : 1 ≤ b)
    (paths : List ((ℤ × ℤ) × List (ℤ × ℤ)))
    (hP : ∀ o, IsMid a b o →
      IsMid a b (((alookup o paths).getD []).getLast?.getD o))
    (start : ℤ × ℤ) (hs : IsMid a b start) :
    ∀ fuel st, WalkInv a b st → wMeasure a b start st < fuel →
      ∃ st', walkLoop (latticeFrame a b) paths start fuel st = some st' ∧
        WalkInv a b st' ∧ st'.opens.length ≤ st.opens.length := by
  intro fuel
  induction fuel with
  | zero => exact fun st _ h => absurd h (Nat.not_lt_zero _)
  | succ n ih =>
    intro st hinv hm
    by_cases hst : st.pos = start
    · refine ⟨st, ?_, hinv, le_rfl⟩
      simp only [walkLoop]
      rw [if_pos hst]
    · obtain ⟨hinv', hdec⟩ := walkBody_sim ha hb paths hP st hinv
      have h1 := pIdx_range ha hb hs
      have h2 := pIdx_range ha hb hinv.mid
      have h3 := pIdx_range ha hb hinv'.mid
      have hne : pIdx a b st.pos ≠ pIdx a b start :=
        fun h => hst (pIdx_inj ha hb hinv.mid hs h)
      have hmlt : wMeasure a b start (walkBody (latticeFrame a b) paths st) <
          n := by
        simp only [wMeasure] at hm ⊢
        rcases hdec with hlen | ⟨hopeq, hpi⟩
        · have hmul : st.opens.length * (2 * a + 2 * b).toNat =
              (walkBody (latticeFrame a b) paths st).opens.length *
                (2 * a + 2 * b).toNat + (2 * a + 2 * b).toNat := by
            rw [← hlen, Nat.add_mul, Nat.one_mul]
          rw [hmul] at hm
          split_ifs at hm ⊢ <;> omega
        · have hL : (walkBody (latticeFrame a b) paths st).opens.length =
              st.opens.length := by rw [hopeq]
          rw [hL]
          rcases hpi with hpi | ⟨hp1, hp2⟩ <;> split_ifs at hm ⊢ <;> omega
      obtain ⟨st', heq, hinv'', hle⟩ :=
        ih (walkBody (latticeFrame a b) paths st) hinv' hmlt
      have hle2 : (walkBody (latticeFrame a b) paths st).opens.length ≤
          st.opens.length := by
        rcases hdec with h | ⟨h, _⟩
        · omega
        · rw [h]
      refine ⟨st', ?_, hinv'', le_trans hle hle2⟩
      simp only [walkLoop]
      rw [if_neg hst]
      exact heq

/-- Closing one open path terminates as soon as the fuel covers every
remaining open path plus one lap of the frame. -/
theorem closeOneOpen_terminates {a b : ℤ} (ha : 1 ≤ a) (hb : 1 ≤ b)
    (paths : List ((ℤ × ℤ) × List (ℤ × ℤ)))
    (hP : ∀ o, IsMid a b o →
      IsMid a b (((alookup o paths).getD []).getLast?.getD o))
    (opens : List (ℤ × ℤ)) (start : ℤ × ℤ) (hs : IsMid a b start)
    (hop : ∀ o ∈ opens, IsMid a b o) {fuel : ℕ}
    (hfuel : (opens.length + 1) * (2 * a + 2 * b).toNat ≤ fuel) :
    ∃ st', closeOneOpen (latticeFrame a b) paths opens start fuel = some st' ∧
      WalkInv a b st' ∧ st'.opens.length ≤ opens.length := by
  have hp0 : IsMid a b (((alookup start paths).getD []).getLast?.getD start) :=
    hP start hs
  have hinv : WalkInv a b
      ⟨((alookup start paths).getD []).getLast?.getD start,
        movX (latticeFrame a b)
          (((alookup start paths).getD []).getLast?.getD start),
        movY (latticeFrame a b)
          (((alookup start paths).getD []).getLast?.getD start),
        opens, (alookup start paths).getD []⟩ := ⟨hp0, rfl, rfl, hop⟩
  have h1 := pIdx_range ha hb hs
  have h2 := pIdx_range ha hb hp0
  have hmlt : wMeasure a b start
      ⟨((alookup start paths).getD []).getLast?.getD start,
        movX (latticeFrame a b)
          (((alookup start paths).getD []).getLast?.getD start),
        movY (latticeFrame a b)
          (((alookup start paths).getD []).getLast?.getD start),
        opens, (alookup start paths).getD []⟩ < fuel := by
    have hmul : (opens.length + 1) * (2 * a + 2 * b).toNat =
        opens.length * (2 * a + 2 * b).toNat + (2 * a + 2 * b).toNat := by
      rw [Nat.add_mul, Nat.one_mul]
    rw [hmul] at hfuel
    simp only [wMeasure]
    split_ifs <;> omega
  obtain ⟨st', heq, hinv', hle⟩ := walkLoop_terminates ha hb paths hP start hs
    fuel _ hinv hmlt
  exact ⟨st', heq, hinv', hle⟩

/-- The outer loop of `close_paths` closes every open path: with enough
pops and fuel it returns a result. -/
theorem walkAll_terminates {a b : ℤ} (ha : 1 ≤ a) (hb : 1 ≤ b)
    (paths : List ((ℤ × ℤ) × List (ℤ × ℤ))) (zOf : ℤ × ℤ → ℕ)
    (hP : ∀ o, IsMid a b o →
      IsMid a b (((alookup o paths).getD []).getLast?.getD o)) :
    ∀ n (opens : List (ℤ × ℤ)), (∀ o ∈ opens, IsMid a b o) →
      opens.length ≤ n → ∀ fuel, (n + 1) * (2 * a + 2 * b).toNat ≤ fuel →
      (walkAll (latticeFrame a b) paths zOf fuel n opens).isSome := by
  intro n
  induction n with
  | zero =>
    intro opens hop hlen fuel hfuel
    have h0 : opens = [] := List.eq_nil_of_length_eq_zero (by omega)
    subst h0
    rfl
  | succ n ih =>
    intro opens hop hlen fuel hfuel
    cases opens with
    | nil => rfl
    | cons i rest =>
      have hs : IsMid a b i := hop i (by simp)
      have hrop : ∀ o ∈ rest, IsMid a b o := fun o ho => hop o (by simp [ho])
      have hlen' : rest.length ≤ n := by
        simpa using hlen
      have hrfuel : (rest.length + 1) * (2 * a + 2 * b).toNat ≤ fuel := by
        have hmono := Nat.mul_le_mul_right ((2 * a + 2 * b).toNat)
          (show rest.length + 1 ≤ n + 1 + 1 by omega)
        omega
      obtain ⟨w, hw, hwinv, hwlen⟩ :=
        closeOneOpen_terminates ha hb paths hP rest i hs hrop hrfuel
      have hnfuel : (n + 1) * (2 * a + 2 * b).toNat ≤ fuel := by
        have hmono := Nat.mul_le_mul_right ((2 * a + 2 * b).toNat)
          (show n + 1 ≤ n + 1 + 1 by omega)
        omega
      have htl := ih w.opens hwinv.mids (by omega) fuel hnfuel
      obtain ⟨tl, htl'⟩ := Option.isSome_iff_exists.mp htl
      simp only [walkAll, Option.bind_eq_bind]
      rw [hw, Option.some_bind, htl', Option.some_bind]
      rfl

/-! ## The claims -/

/-- Claim C1 (amended): on a grid whose category values are all equal the
extraction succeeds, produces no boundary segments at all, and emits *zero*
filled regions (not one region covering the grid). -/
theorem C1_uniform_extraction (g : Grid) (tcw : List Pt → Bool × ℕ)
    (ctnP : List Pt → List Pt → Bool) (fuel : ℕ)
    (hz : ∀ r c, g.z r c = g.z 0 0) :
    stitchGrid g = some (SState.empty Pt) ∧
    extractFill g tcw ctnP fuel = some [] :=
  uniform_extractFill g tcw ctnP fuel hz

/-- Witness for C1: the concrete uniform 2×2 grid. -/
theorem C1_witness :
    (∀ r c, gUniform.z r c = gUniform.z 0 0) ∧
    (stitchGrid gUniform = some (SState.empty Pt) ∧
      extractFill gUniform tcwTrivial ctnTrivial 0 = some []) :=
  ⟨fun _ _ => rfl,
    C1_uniform_extraction gUniform tcwTrivial ctnTrivial 0 fun _ _ => rfl⟩

/-- Counterexample to C1 as stated: on the uniform 2×2 grid the solid-fill
extraction returns an *empty* patch list, not exactly one filled region. -/
theorem C1_counterexample :
    extractFill gUniform tcwTrivial ctnTrivial 0 = some [] ∧
    ∀ ps : List (List Pt),
      extractFill gUniform tcwTrivial ctnTrivial 0 = some ps →
      ps.length ≠ 1 := by
  have hE : extractFill gUniform tcwTrivial ctnTrivial 0 = some [] :=
    (uniform_extractFill gUniform tcwTrivial ctnTrivial 0 fun _ _ => rfl).2
  refine ⟨hE, ?_⟩
  intro ps hps
  rw [hE] at hps
  cases hps
  decide

/-- Claim C2 (amended): a cell with exactly two unequal sides emits the two
directed segments `(p, q)` and `(q, p)` joining the two side midpoints — one
in each direction, because the cyclic chain of a two-point cell wraps around
— with no middle vertex. -/
theorem C2_two_sided_cell (g : Grid) (i j : ℕ)
    (h2 : (colsNotEqual g i j).toNat + (rowsNotEqual g (i + 1) j).toNat +
      (colsNotEqual g i (j + 1)).toNat + (rowsNotEqual g i j).toNat = 2) :
    ∃ p q, cellPoints g i j = [p, q] ∧
      chainOf (cellPoints g i j) = [(p, q), (q, p)] ∧
      middleNeeded (cellPoints g i j) = false ∧ cellMid g i j = none :=
  cell_two_unequal g i j h2

/-- Witness for C2: the single cell of the vertically split 2×2 grid. -/
theorem C2_witness :
    ((colsNotEqual gVert 0 0).toNat + (rowsNotEqual gVert (0 + 1) 0).toNat +
      (colsNotEqual gVert 0 (0 + 1)).toNat + (rowsNotEqual gVert 0 0).toNat
        = 2) ∧
    ∃ p q, cellPoints gVert 0 0 = [p, q] ∧
      chainOf (cellPoints gVert 0 0) = [(p, q), (q, p)] ∧
      middleNeeded (cellPoints gVert 0 0) = false ∧ cellMid gVert 0 0 = none :=
  ⟨by decide, C2_two_sided_cell gVert 0 0 (by decide)⟩

/-- Counterexample to C2 as stated: the two-sided cell of `gVert` emits a
chain of *two* directed segments (both directions), not exactly one. -/
theorem C2_counterexample :
    ((colsNotEqual gVert 0 0).toNat + (rowsNotEqual gVert (0 + 1) 0).toNat +
      (colsNotEqual gVert 0 (0 + 1)).toNat + (rowsNotEqual gVert 0 0).toNat
        = 2) ∧
    (chainOf (cellPoints gVert 0 0)).length = 2 ∧
    (chainOf (cellPoints gVert 0 0)).length ≠ 1 := by
  obtain ⟨p, q, hp, hch, -⟩ := cell_two_unequal gVert 0 0 (by decide)
  rw [hch]
  exact ⟨by decide, rfl, by simp⟩

/-- Claim C3 (amended): along a run of the stitcher in which every guarded
dictionary update succeeds from the empty state, the guarded run performs
exactly the source's updates, no stored vertex is ever lost, and both
endpoints of every applied segment occur as vertices of the final stitched
paths — endpoint conservation as a *set*, not as a multiset, and with no
order-independence guarantee. -/
theorem C3_vertex_conservation (bs : List (List α × Option α))
    (st' : SState α)
    (h : applyBatchesChecked (SState.empty α) bs = some st') :
    applyBatches (SState.empty α) bs = some st' ∧
    ∀ b ∈ bs, ∀ t ∈ chainOf b.1, InVerts st' t.1 ∧ InVerts st' t.2 :=
  ⟨applyBatchesChecked_le bs _ st' h,
    (applyBatchesChecked_verts bs _ st' consistent_empty h).2⟩

/-- Witness for C3: one two-point batch over `ℕ`. -/
theorem C3_witness :
    applyBatchesChecked (SState.empty ℕ) [([1, 2], none)] =
      some ⟨[(2, [2, 1]), (1, [1, 2])], [(2, 1), (1, 2)], [(1, 2), (2, 1)]⟩ ∧
    (applyBatches (SState.empty ℕ) [([1, 2], none)] =
      some ⟨[(2, [2, 1]), (1, [1, 2])], [(2, 1), (1, 2)], [(1, 2), (2, 1)]⟩ ∧
    ∀ b ∈ [([1, 2], (none : Option ℕ))], ∀ t ∈ chainOf b.1,
      InVerts ⟨[(2, [2, 1]), (1, [1, 2])], [(2, 1), (1, 2)],
        [(1, 2), (2, 1)]⟩ t.1 ∧
      InVerts ⟨[(2, [2, 1]), (1, [1, 2])], [(2, 1), (1, 2)],
        [(1, 2), (2, 1)]⟩ t.2) :=
  ⟨rfl, C3_vertex_conservation [([1, 2], none)] _ rfl⟩

/-- Counterexample to C3 as stated: for two stacked two-point batches along
one line, the shared midpoint `1` occurs *four* times among the segment
endpoints but only *twice* among the stitched path vertices, so the
endpoint multiset is not conserved; and for a ring of four two-point
batches the forward and reversed batch orders stitch genuinely different
vertex lists (loops based at different points), so the result depends on
the processing order. -/
theorem C3_counterexample :
    ((([([1, 0], (none : Option ℕ)), ([2, 1], none)]).flatMap fun b =>
        (chainOf b.1).flatMap fun t => [t.1, t.2]).count 1 = 4 ∧
      (applyBatches (SState.empty ℕ) [([1, 0], none), ([2, 1], none)]).map
        (fun st => (st.paths.flatMap fun p => p.2).count 1) = some 2) ∧
    ((applyBatches (SState.empty ℕ)
        [([0, 1], none), ([1, 2], none), ([2, 3], none), ([3, 0], none)]).bind
      fun st =>
        (applyBatches (SState.empty ℕ)
          [([0, 1], (none : Option ℕ)), ([1, 2], none), ([2, 3], none),
            ([3, 0], none)].reverse).map fun st2 =>
          st.paths.all fun p => p.2 ∈ st2.paths.map Prod.snd) = some false := by
  decide

/-- Claim C4 (confirmed): extraction is a pure function of the grid data:
two grids with the same dimensions and pointwise equal coordinates and
category values extract identically. -/
theorem C4_deterministic (g1 g2 : Grid) (tcw : List Pt → Bool × ℕ)
    (ctnP : List Pt → List Pt → Bool) (fuel : ℕ)
    (hrows : g1.rows = g2.rows) (hcols : g1.cols = g2.cols)
    (hxs : ∀ c, g1.xs c = g2.xs c) (hys : ∀ r, g1.ys r = g2.ys r)
    (hz : ∀ r c, g1.z r c = g2.z r c) :
    extractFill g1 tcw ctnP fuel = extractFill g2 tcw ctnP fuel := by
  have hg : g1 = g2 := by
    obtain ⟨r1, c1, x1, y1, z1⟩ := g1
    obtain ⟨r2, c2, x2, y2, z2⟩ := g2
    rw [Grid.mk.injEq]
    exact ⟨hrows, hcols, funext hxs, funext hys,
      funext fun r => funext fun c => hz r c⟩
  rw [hg]

/-- Witness for C4: the two syntactically different uniform grids. -/
theorem C4_witness :
    extractFill gUniform tcwTrivial ctnTrivial 0 =
      extractFill gUniform2 tcwTrivial ctnTrivial 0 :=
  C4_deterministic gUniform gUniform2 tcwTrivial ctnTrivial 0 rfl rfl
    (fun _ => rfl) (fun _ => rfl) (fun r c => (Nat.mul_zero (r + c)).symm)

/-- Claim C5 (confirmed): when the containment oracle is irreflexive and
transitive on the given path starts, the direct-child map of
`calc_area_hierarchy` records no region as its own child, and following
direct-child links never returns to the starting region. -/
theorem C5_hierarchy_acyclic (starts : List γ) (ctn : γ → γ → Bool)
    (hirr : ∀ a ∈ starts, ctn a a = false)
    (htr : ∀ a b c, a ∈ starts → b ∈ starts → c ∈ starts →
      ctn a b = true → ctn b c = true → ctn a c = true) :
    (∀ a l, alookup a (calcAreaHierarchy starts ctn) = some l → a ∉ l) ∧
    ∀ a, ¬ Relation.TransGen (childRel starts ctn) a a :=
  calcAreaHierarchy_acyclic starts ctn hirr htr

/-- Witness for C5: two regions with strict containment over `Bool`. -/
theorem C5_witness :
    (∀ a ∈ [false, true], (fun x y : Bool => !x && y) a a = false) ∧
    ((∀ a l, alookup a (calcAreaHierarchy [false, true]
        fun x y : Bool => !x && y) = some l → a ∉ l) ∧
      ∀ a, ¬ Relation.TransGen
        (childRel [false, true] fun x y : Bool => !x && y) a a) :=
  ⟨by decide, C5_hierarchy_acyclic [false, true] (fun x y : Bool => !x && y)
    (by decide) (by decide)⟩

/-- Claim C6 (confirmed): on the canonical even lattice, for every set of
stored open paths whose far endpoints lie on the frame (are frame midpoints)
and every list of open starting points on the frame, the full frame-walking
loop of `close_paths` terminates: it returns a result within an explicit
fuel bound of one frame lap per open path. -/
theorem C6_close_paths_terminates {a b : ℤ} (ha : 1 ≤ a) (hb : 1 ≤ b)
    (paths : List ((ℤ × ℤ) × List (ℤ × ℤ))) (zOf : ℤ × ℤ → ℕ)
    (opens : List (ℤ × ℤ))
    (hP : ∀ o, IsMid a b o →
      IsMid a b (((alookup o paths).getD []).getLast?.getD o))
    (hop : ∀ o ∈ opens, IsMid a b o) :
    (walkAll (latticeFrame a b) paths zOf
      ((opens.length + 1) * (2 * a + 2 * b).toNat)
      opens.length opens).isSome :=
  walkAll_terminates ha hb paths zOf hP opens.length opens hop le_rfl _ le_rfl

/-- Witness for C6: one open path on the 1×1-cell lattice frame. -/
theorem C6_witness :
    (walkAll (latticeFrame 1 1) [] (fun _ => 0)
      (([((1 : ℤ), (0 : ℤ))].length + 1) * (2 * 1 + 2 * 1 : ℤ).toNat)
      [((1 : ℤ), (0 : ℤ))].length [((1 : ℤ), (0 : ℤ))]).isSome :=
  C6_close_paths_terminates (by decide) (by decide) [] (fun _ => 0)
    [((1 : ℤ), (0 : ℤ))] (fun _ ho => ho) (by decide)

/-- Claim C7 (amended): an open path is closed directly exactly when its
start and end share an X coordinate or share a Y coordinate — not
necessarily on the same frame edge — and the closed candidate tests
counter-clockwise; a candidate whose test is clockwise is not discarded: its
starting point stays among the still-open paths handed to the frame walk. -/
theorem C7_direct_closure (tcw : List Pt → Bool × ℕ)
    (paths : List (Pt × List Pt)) (opens : List Pt) (i : Pt) (c : List Pt)
    (zv : ℕ) :
    (directlyClosed tcw paths i = some (c, zv) ↔
      ∃ p e, alookup i paths = some p ∧ p.getLast? = some e ∧
        (i.1 = e.1 ∨ i.2 = e.2) ∧ (tcw (p ++ [i])).1 = true ∧
        c = p ++ [i] ∧ zv = (tcw (p ++ [i])).2) ∧
    (i ∈ opens → directlyClosed tcw paths i = none →
      i ∈ (directClose tcw paths opens).2.2) := by
  refine ⟨directlyClosed_iff tcw paths i c zv, fun hi hn => ?_⟩
  simp only [directClose, List.mem_filter]
  exact ⟨hi, by rw [hn]; rfl⟩

/-- Witness for C7: a path spanning from the bottom edge to the top edge
with a shared X coordinate. -/
theorem C7_witness :
    (directlyClosed (fun _ => (true, 7))
        [(((1 : ℚ), (0 : ℚ)), [((1 : ℚ), (0 : ℚ)), ((1 : ℚ), (2 : ℚ))])]
        ((1 : ℚ), (0 : ℚ)) =
      some ([((1 : ℚ), (0 : ℚ)), ((1 : ℚ), (2 : ℚ)), ((1 : ℚ), (0 : ℚ))], 7) ↔
      ∃ p e, alookup ((1 : ℚ), (0 : ℚ))
          [(((1 : ℚ), (0 : ℚ)), [((1 : ℚ), (0 : ℚ)), ((1 : ℚ), (2 : ℚ))])] =
            some p ∧
        p.getLast? = some e ∧
        (((1 : ℚ), (0 : ℚ)).1 = e.1 ∨ ((1 : ℚ), (0 : ℚ)).2 = e.2) ∧
        ((fun (_ : List Pt) => (true, 7)) (p ++ [((1 : ℚ), (0 : ℚ))])).1 =
          true ∧
        [((1 : ℚ), (0 : ℚ)), ((1 : ℚ), (2 : ℚ)), ((1 : ℚ), (0 : ℚ))] =
          p ++ [((1 : ℚ), (0 : ℚ))] ∧
        7 = ((fun (_ : List Pt) => (true, 7))
          (p ++ [((1 : ℚ), (0 : ℚ))])).2) ∧
    (((1 : ℚ), (0 : ℚ)) ∈ [((1 : ℚ), (0 : ℚ))] →
      directlyClosed (fun _ => (true, 7))
        [(((1 : ℚ), (0 : ℚ)), [((1 : ℚ), (0 : ℚ)), ((1 : ℚ), (2 : ℚ))])]
        ((1 : ℚ), (0 : ℚ)) = none →
      ((1 : ℚ), (0 : ℚ)) ∈ (directClose (fun _ => (true, 7))
        [(((1 : ℚ), (0 : ℚ)), [((1 : ℚ), (0 : ℚ)), ((1 : ℚ), (2 : ℚ))])]
        [((1 : ℚ), (0 : ℚ))]).2.2) :=
  C7_direct_closure (fun _ => (true, 7))
    [(((1 : ℚ), (0 : ℚ)), [((1 : ℚ), (0 : ℚ)), ((1 : ℚ), (2 : ℚ))])]
    [((1 : ℚ), (0 : ℚ))] ((1 : ℚ), (0 : ℚ))
    [((1 : ℚ), (0 : ℚ)), ((1 : ℚ), (2 : ℚ)), ((1 : ℚ), (0 : ℚ))] 7

/-- Counterexample to C7 as stated: the open path from `(1, 0)` on the
bottom edge to `(1, 2)` on the top edge of the 2×2 frame is closed directly
(shared X coordinate) even though its endpoints lie on *different* frame
edges; and with a clockwise verdict the candidate is not discarded — its
start stays among the still-open paths. -/
theorem C7_counterexample :
    directlyClosed (fun _ => (true, 7))
        [(((1 : ℚ), (0 : ℚ)), [((1 : ℚ), (0 : ℚ)), ((1 : ℚ), (2 : ℚ))])]
        ((1 : ℚ), (0 : ℚ)) =
      some ([((1 : ℚ), (0 : ℚ)), ((1 : ℚ), (2 : ℚ)), ((1 : ℚ), (0 : ℚ))],
        7) ∧
    ¬ specSameFrameEdge frame2 ((1 : ℚ), (0 : ℚ)) ((1 : ℚ), (2 : ℚ)) ∧
    (directClose (fun _ => (false, 7))
        [(((1 : ℚ), (0 : ℚ)), [((1 : ℚ), (0 : ℚ)), ((1 : ℚ), (2 : ℚ))])]
        [((1 : ℚ), (0 : ℚ))]).2.2 = [((1 : ℚ), (0 : ℚ))] := by
  decide

/-- Claim C8 (confirmed): a saddle cell (all four sides unequal) emits the
four segments of its cyclic midpoint chain, all routed through the cell's
centroid; the chain has no duplicate and no zero-length segment, and
applying the batch succeeds, storing one three-vertex path through the
centre per segment. -/
theorem C8_saddle (g : Grid) (i j : ℕ)
    (hf1 : colsNotEqual g i j = true) (hf2 : rowsNotEqual g (i + 1) j = true)
    (hf3 : colsNotEqual g i (j + 1) = true) (hf4 : rowsNotEqual g i j = true)
    (hsx : g.xs (j + 1) = g.xs j + 2 * halfDeltaX g)
    (hsy : g.ys (i + 1) = g.ys i + 2 * halfDeltaY g)
    (hpx : 0 < halfDeltaX g) (hpy : 0 < halfDeltaY g) :
    cellPoints g i j =
      [((g.xs j : ℚ), g.ys i + halfDeltaY g),
       (g.xs j + halfDeltaX g, g.ys (i + 1)),
       ((g.xs (j + 1) : ℚ), g.ys i + halfDeltaY g),
       (g.xs j + halfDeltaX g, g.ys i)] ∧
    cellMid g i j = some (g.xs j + halfDeltaX g, g.ys i + halfDeltaY g) ∧
    (chainOf (cellPoints g i j)).Nodup ∧
    (∀ t ∈ chainOf (cellPoints g i j), t.1 ≠ t.2) ∧
    ∃ st, applyBatch (SState.empty Pt) (cellPoints g i j) (cellMid g i j) =
        some st ∧
      ∀ t ∈ chainOf (cellPoints g i j),
        alookup t.1 st.paths =
          some [t.1, (g.xs j + halfDeltaX g, g.ys i + halfDeltaY g), t.2] :=
  cell_saddle g i j hf1 hf2 hf3 hf4 hsx hsy hpx hpy

/-- Witness for C8: the saddle cell of the diagonal 2×2 grid. -/
theorem C8_witness :
    (chainOf (cellPoints gSaddle 0 0)).Nodup ∧
    (∀ t ∈ chainOf (cellPoints gSaddle 0 0), t.1 ≠ t.2) ∧
    ∃ st, applyBatch (SState.empty Pt) (cellPoints gSaddle 0 0)
        (cellMid gSaddle 0 0) = some st ∧
      ∀ t ∈ chainOf (cellPoints gSaddle 0 0),
        alookup t.1 st.paths =
          some [t.1, (gSaddle.xs 0 + halfDeltaX gSaddle,
            gSaddle.ys 0 + halfDeltaY gSaddle), t.2] := by
  have h := C8_saddle gSaddle 0 0 (by decide) (by decide) (by decide)
    (by decide) (by norm_num [gSaddle, halfDeltaX])
    (by norm_num [gSaddle, halfDeltaY]) (by norm_num [gSaddle, halfDeltaX])
    (by norm_num [gSaddle, halfDeltaY])
  exact ⟨h.2.2.1, h.2.2.2.1, h.2.2.2.2⟩

/-- Claim C9 (amended): the fill-emission step appends each direct child's
reversed vertex list to the *region's own stored list in place* — so the
region's stored vertex list is mutated — while the stored vertex list of
every other path, in particular each child's own, is left unchanged. -/
theorem C9_emit_effect (i : γ) (children : List γ)
    (paths : List (γ × List γ)) (v0 : List γ)
    (hv0 : alookup i paths = some v0)
    (hch : ∀ c ∈ children, c ≠ i ∧ (alookup c paths).isSome) :
    ∃ ps', emitOne i children paths = some ps' ∧
      alookup i ps' = some (v0 ++ (children.flatMap fun c =>
        ((alookup c paths).getD []).reverse)) ∧
      ∀ x, x ≠ i → alookup x ps' = alookup x paths :=
  emitOne_spec i children paths v0 hv0 hch

/-- Witness for C9: one region with one hole over `ℕ`. -/
theorem C9_witness :
    alookup 0 [(0, [7]), (1, [8, 9])] = some [7] ∧
    ∃ ps', emitOne 0 [1] [(0, [7]), (1, [8, 9])] = some ps' ∧
      alookup 0 ps' = some ([7] ++ ([1].flatMap fun c =>
        ((alookup c [(0, [7]), (1, [8, 9])]).getD []).reverse)) ∧
      ∀ x, x ≠ 0 → alookup x ps' = alookup x [(0, [7]), (1, [8, 9])] :=
  ⟨rfl, C9_emit_effect 0 [1] [(0, [7]), (1, [8, 9])] [7] rfl (by decide)⟩

/-- Counterexample to C9 as stated: emitting the polygon of region `0` with
hole `1` rebinds region `0`'s stored vertex list from `[7]` to
`[7, 9, 8]`, so a finalized path's stored list *is* mutated by the
fill-emission step. -/
theorem C9_counterexample :
    alookup 0 [(0, [7]), (1, [8, 9])] = some [7] ∧
    emitOne 0 [1] [(0, [7]), (1, [8, 9])] =
      some [(0, [7, 9, 8]), (1, [8, 9])] ∧
    (alookup 0 [(0, [7, 9, 8]), (1, [8, 9])] : Option (List ℕ)) ≠
      alookup 0 [(0, [7]), (1, [8, 9])] := by
  decide

/-- Claim C10 (confirmed): along a run of the stitcher in which every
guarded dictionary update succeeds from the empty state — the guards encode
exactly the aliasing cases the source never meets — the guarded run performs
the source's updates and the three bookkeeping maps end mutually consistent:
every open start's stored path runs from its start to its recorded end, the
end map mirrors it, and closed loops keep `startsToEnds[k] = k` with no
`endsToStarts` entry. -/
theorem C10_bookkeeping (bs : List (List α × Option α)) (st' : SState α)
    (h : applyBatchesChecked (SState.empty α) bs = some st') :
    Consistent st' ∧ applyBatches (SState.empty α) bs = some st' :=
  ⟨applyBatchesChecked_consistent bs _ st' consistent_empty h,
    applyBatchesChecked_le bs _ st' h⟩

/-- Witness for C10: one two-point batch over `ℕ`. -/
theorem C10_witness :
    applyBatchesChecked (SState.empty ℕ) [([1, 2], none)] =
      some ⟨[(2, [2, 1]), (1, [1, 2])], [(2, 1), (1, 2)], [(1, 2), (2, 1)]⟩ ∧
    (Consistent (⟨[(2, [2, 1]), (1, [1, 2])], [(2, 1), (1, 2)],
        [(1, 2), (2, 1)]⟩ : SState ℕ) ∧
      applyBatches (SState.empty ℕ) [([1, 2], none)] =
        some ⟨[(2, [2, 1]), (1, [1, 2])], [(2, 1), (1, 2)],
          [(1, 2), (2, 1)]⟩) :=
  ⟨rfl, C10_bookkeeping [([1, 2], none)] _ rfl⟩

end Graphtastic
